import Mathlib

/-!
# concurrent-expiring-map: a sharded map from string keys to expiring byte values

Shallow embedding of `concurrent_expiring_map.go` (package `cmap`).

* A Go `string` is an immutable byte sequence: `Key` is `List UInt8`.
* A Go `[]byte` is either `nil` or a (possibly empty) byte sequence:
  `Option (List UInt8)`, where `none` is `nil`.
* A `time.Time` is an instant on a line: `Time` is `Int`, the zero value of
  `time.Time` is the instant `0`, `Before` is `<` and `After` is `>`.
* The package variable `SHARD_COUNT` is an explicit parameter of every
  operation that reads it.
* `time.Now()` is an explicit parameter: keyed operations read the clock once
  (`now`); the scans of `Count` and `Iter` read it once per stored entry, the
  `j`-th reading of a call being `clock j`; `IterBuffered` takes one clock for
  its `Count` and one for its scan.
* A run-time panic is an `Except.error`.
* The reader/writer mutex of a shard carries no data; operations are modelled
  at whole-operation granularity.
-/

namespace cmap

/-- A Go `string`: a finite sequence of bytes. -/
abbrev Key := List UInt8

/-- An instant (`time.Time`); the zero value of `time.Time` is `0`. -/
abbrev Time := Int

/-- The run-time panics the package can raise. -/
inductive Panic where
  | divideByZero
  | indexOutOfRange
  | makesliceLenOutOfRange
  deriving DecidableEq

/-- Equality of results is decidable. -/
instance instDecidableEqExcept {ε α : Type} [DecidableEq ε] [DecidableEq α] :
    DecidableEq (Except ε α)
  | .ok a, .ok b => if h : a = b then isTrue (by rw [h]) else isFalse (by intro h1; cases h1; exact h rfl)
  | .error a, .error b =>
    if h : a = b then isTrue (by rw [h]) else isFalse (by intro h1; cases h1; exact h rfl)
  | .ok _, .error _ => isFalse (by intro h; cases h)
  | .error _, .ok _ => isFalse (by intro h; cases h)

/-- The struct `ConcurrentMapItem` of the source. -/
structure ConcurrentMapItem where
  Expires : Time
  Value : Option (List UInt8)
  deriving DecidableEq

/-- The zero value of `ConcurrentMapItem`, what a Go map lookup yields for an
absent key: zero time and a nil slice. -/
def ConcurrentMapItem.zero : ConcurrentMapItem := ⟨0, none⟩

/-- A Go `map[string]ConcurrentMapItem`: finitely many entries, keys unique. -/
abbrev Items := AList (fun _ : Key => ConcurrentMapItem)

/-- The struct `ConcurrentMapShared` of the source (the mutex carries no data). -/
structure ConcurrentMapShared where
  items : Items
  deriving DecidableEq

/-- The type `ConcurrentMap`: a slice of shards. -/
abbrev ConcurrentMap := List ConcurrentMapShared

/-- The struct `Tuple` of the source. -/
structure Tuple where
  Key : Key
  Val : ConcurrentMapItem
  deriving DecidableEq

/-- The two-result map lookup `val, ok := items[key]` of Go. -/
def lookup2 (items : Items) (key : Key) : ConcurrentMapItem × Bool :=
  match items.lookup key with
  | some v => (v, true)
  | none => (ConcurrentMapItem.zero, false)

/-! ## hash/fnv: the 32-bit FNV-1 hash -/

def offset32 : Nat := 2166136261

def prime32 : Nat := 16777619

/-- The method `Write` of `fnv.New32()`: multiply by the prime modulo `2^32`, then xor
the byte in. -/
def fnvWrite (hash : Nat) : List UInt8 → Nat
  | [] => hash
  | c :: cs => fnvWrite (Nat.xor ((hash * prime32) % 2 ^ 32) c.toNat) cs

/-- The value `hasher.Sum32()` after `hasher.Write([]byte(key))` on a fresh `fnv.New32()`. -/
def Sum32 (key : Key) : Nat := fnvWrite offset32 key

/-- The conversion `int(u)` of a `uint32` to an `int` of `bits` bits (two's complement
wrap-around). -/
def intOfUint32 (bits : Nat) (u : Nat) : Int :=
  if u % 2 ^ bits < 2 ^ (bits - 1) then ((u % 2 ^ bits : Nat) : Int)
  else ((u % 2 ^ bits : Nat) : Int) - ((2 ^ bits : Nat) : Int)

/-- The index expression `int(hasher.Sum32()) % SHARD_COUNT` of `GetShard`, for an `int`
of `bits` bits: `%` is the truncated remainder and panics on a zero divisor. -/
def shardIndex (bits : Nat) (SHARD_COUNT : Int) (key : Key) : Except Panic Int :=
  if SHARD_COUNT = 0 then .error .divideByZero
  else .ok (Int.tmod (intOfUint32 bits (Sum32 key)) SHARD_COUNT)

/-- The width of `int` the embedding of the operations fixes (a 64-bit platform). -/
def intBits : Nat := 64

namespace ConcurrentMap

/-- The function `New`: `make` panics on a negative length, then every slot gets a fresh
shard with an empty table. -/
def New (SHARD_COUNT : Int) : Except Panic ConcurrentMap :=
  if SHARD_COUNT < 0 then .error .makesliceLenOutOfRange
  else .ok (List.replicate SHARD_COUNT.toNat ⟨∅⟩)

/-- The method `GetShard`: the slot `m[int(hasher.Sum32()) % SHARD_COUNT]`, returned as
the slot index together with the shard it holds. -/
def GetShard (SHARD_COUNT : Int) (m : ConcurrentMap) (key : Key) :
    Except Panic (Nat × ConcurrentMapShared) :=
  match shardIndex intBits SHARD_COUNT key with
  | .error e => .error e
  | .ok idx =>
    if idx < 0 then .error .indexOutOfRange
    else
      match m[idx.toNat]? with
      | none => .error .indexOutOfRange
      | some shard => .ok (idx.toNat, shard)

/-- The method `Set`, executed at instant `now`. -/
def Set (SHARD_COUNT : Int) (m : ConcurrentMap) (key : Key) (value : Option (List UInt8))
    (expiresAt now : Time) : Except Panic ConcurrentMap :=
  if expiresAt > now then
    match GetShard SHARD_COUNT m key with
    | .error e => .error e
    | .ok (i, shard) =>
      let newItem : ConcurrentMapItem := { Value := some (value.getD []), Expires := expiresAt }
      .ok (m.set i { items := shard.items.insert key newItem })
  else .ok m

/-- The method `Get`, executed at instant `now`. -/
def Get (SHARD_COUNT : Int) (m : ConcurrentMap) (key : Key) (now : Time) :
    Except Panic (Option (List UInt8) × Bool) :=
  match GetShard SHARD_COUNT m key with
  | .error e => .error e
  | .ok (_, shard) =>
    let (val, ok) := lookup2 shard.items key
    if val.Expires < now then .ok (none, false)
    else .ok (val.Value, ok)

/-- The inner loop of `Count` over one table: `tick` is the number of clock readings
made so far. -/
def countItems (clock : Nat → Time) :
    List (Sigma fun _ : Key => ConcurrentMapItem) → Nat → Nat → Nat × Nat
  | [], tick, count => (tick, count)
  | e :: es, tick, count =>
    if e.2.Expires > clock tick then countItems clock es (tick + 1) (count + 1)
    else countItems clock es (tick + 1) count

/-- The outer loop `for i := 0; i < SHARD_COUNT; i++` of `Count`, with `n` iterations
left. -/
def countLoop (clock : Nat → Time) (m : ConcurrentMap) :
    Nat → Nat → Nat → Nat → Except Panic Nat
  | 0, _, _, count => .ok count
  | n + 1, i, tick, count =>
    match m[i]? with
    | none => .error .indexOutOfRange
    | some shard =>
      let r := countItems clock shard.items.entries tick count
      countLoop clock m n (i + 1) r.1 r.2

/-- The method `Count`. -/
def Count (SHARD_COUNT : Int) (m : ConcurrentMap) (clock : Nat → Time) : Except Panic Nat :=
  countLoop clock m SHARD_COUNT.toNat 0 0 0

/-- The method `Has`, executed at instant `now`. -/
def Has (SHARD_COUNT : Int) (m : ConcurrentMap) (key : Key) (now : Time) :
    Except Panic Bool :=
  match GetShard SHARD_COUNT m key with
  | .error e => .error e
  | .ok (_, shard) =>
    let (val, ok) := lookup2 shard.items key
    if ok && decide (val.Expires < now) then .ok false
    else .ok ok

/-- The method `Remove`. -/
def Remove (SHARD_COUNT : Int) (m : ConcurrentMap) (key : Key) : Except Panic ConcurrentMap :=
  match GetShard SHARD_COUNT m key with
  | .error e => .error e
  | .ok (i, shard) => .ok (m.set i { items := shard.items.erase key })

/-- The loop `for i := 0; i < SHARD_COUNT; i++` of `Flush`, with `n` iterations left. -/
def flushLoop : Nat → Nat → ConcurrentMap → Except Panic ConcurrentMap
  | 0, _, m => .ok m
  | n + 1, i, m =>
    if i < m.length then flushLoop n (i + 1) (m.set i ⟨∅⟩)
    else .error .indexOutOfRange

/-- The method `Flush`. -/
def Flush (SHARD_COUNT : Int) (m : ConcurrentMap) : Except Panic ConcurrentMap :=
  flushLoop SHARD_COUNT.toNat 0 m

/-- The method `IsEmpty`. -/
def IsEmpty (SHARD_COUNT : Int) (m : ConcurrentMap) (clock : Nat → Time) : Except Panic Bool :=
  match Count SHARD_COUNT m clock with
  | .error e => .error e
  | .ok c => .ok (c == 0)

/-- The inner loop of `Iter` over one table: the tuples sent on the channel, and the
number of clock readings made. -/
def iterItems (clock : Nat → Time) :
    List (Sigma fun _ : Key => ConcurrentMapItem) → Nat → List Tuple × Nat
  | [], tick => ([], tick)
  | e :: es, tick =>
    let r := iterItems clock es (tick + 1)
    if e.2.Expires > clock tick then (⟨e.1, e.2⟩ :: r.1, r.2)
    else r

/-- The outer loop `for _, shard := range m` of `Iter`. -/
def iterLoop (clock : Nat → Time) : ConcurrentMap → Nat → List Tuple
  | [], _ => []
  | shard :: rest, tick =>
    let r := iterItems clock shard.items.entries tick
    r.1 ++ iterLoop clock rest r.2

/-- The method `Iter`: the sequence of tuples the producer sends before it closes the
channel. -/
def Iter (m : ConcurrentMap) (clock : Nat → Time) : List Tuple :=
  iterLoop clock m 0

/-- The method `IterBuffered`: the capacity `m.Count()` of the channel it makes, whose clock
readings are `clock0 j`, and the sequence of tuples the producer then sends, whose clock
readings are `clock j`. -/
def IterBuffered (SHARD_COUNT : Int) (m : ConcurrentMap) (clock0 clock : Nat → Time) :
    Except Panic (Nat × List Tuple) :=
  match Count SHARD_COUNT m clock0 with
  | .error e => .error e
  | .ok capacity => .ok (capacity, iterLoop clock m 0)

end ConcurrentMap

/-! ## Sequences of mutating calls -/

/-- A mutating call on the map. -/
inductive Op where
  | set (key : Key) (value : Option (List UInt8)) (expiresAt : Time)
  | remove (key : Key)
  | flush
  deriving DecidableEq

/-- One call `op`, executed at instant `now`. -/
def step (SHARD_COUNT : Int) (m : ConcurrentMap) (op : Op) (now : Time) :
    Except Panic ConcurrentMap :=
  match op with
  | .set key value expiresAt => ConcurrentMap.Set SHARD_COUNT m key value expiresAt now
  | .remove key => ConcurrentMap.Remove SHARD_COUNT m key
  | .flush => ConcurrentMap.Flush SHARD_COUNT m

/-- A sequence of calls, each with the instant at which it is executed, run in order. -/
def run (SHARD_COUNT : Int) : ConcurrentMap → List (Op × Time) → Except Panic ConcurrentMap
  | m, [] => .ok m
  | m, (op, now) :: rest =>
    match step SHARD_COUNT m op now with
    | .error e => .error e
    | .ok m1 => run SHARD_COUNT m1 rest

/-- The calls `ops` applied to a fresh `New()`. -/
def exec (SHARD_COUNT : Int) (ops : List (Op × Time)) : Except Panic ConcurrentMap :=
  match ConcurrentMap.New SHARD_COUNT with
  | .error e => .error e
  | .ok m => run SHARD_COUNT m ops

/-- A Go string literal as a key: its UTF-8 bytes. -/
def str (s : String) : Key := s.toUTF8.data.toList

/-- The slot a key is routed to on a 64-bit platform when `SHARD_COUNT` is positive. -/
def slot (SHARD_COUNT : Int) (key : Key) : Nat := Sum32 key % SHARD_COUNT.toNat

/-- The entry physically stored under `key` in the shard the key is routed to. -/
def stored (SHARD_COUNT : Int) (m : ConcurrentMap) (key : Key) : Option ConcurrentMapItem :=
  match m[slot SHARD_COUNT key]? with
  | some shard => shard.items.lookup key
  | none => none

/-- A map whose slice has exactly `SHARD_COUNT > 0` slots. -/
def WellFormed (SHARD_COUNT : Int) (m : ConcurrentMap) : Prop :=
  0 < SHARD_COUNT ∧ m.length = SHARD_COUNT.toNat

/-- What `Get` returns, as a function of the entry stored under the key. -/
def getResult (e : Option ConcurrentMapItem) (now : Time) : Option (List UInt8) × Bool :=
  match e with
  | some it => if it.Expires < now then (none, false) else (it.Value, true)
  | none => (none, false)

/-- What `Has` returns, as a function of the entry stored under the key. -/
def hasResult (e : Option ConcurrentMapItem) (now : Time) : Bool :=
  match e with
  | some it => !decide (it.Expires < now)
  | none => false

/-! ## The unsharded reference map -/

/-- The effect of one call on the entry held under `key` in a plain (unsharded) map from
keys to entries: an accepted `Set` of `key` writes a fresh entry, a `Remove` of `key` and a
`Flush` delete it, every other call leaves it alone. -/
def track (key : Key) (e : Option ConcurrentMapItem) (c : Op × Time) :
    Option ConcurrentMapItem :=
  match c.1 with
  | .set key1 value expiresAt =>
    if key1 = key ∧ c.2 < expiresAt then some ⟨expiresAt, some (value.getD [])⟩ else e
  | .remove key1 => if key1 = key then none else e
  | .flush => none

/-- Whether a call can change the entry held under `key`: a `Set` or `Remove` of that key,
or a `Flush`. -/
def Op.touches (key : Key) : Op → Bool
  | .set key1 _ _ => decide (key1 = key)
  | .remove key1 => decide (key1 = key)
  | .flush => true

/-- The keys that occur as the key of a `Set` in a sequence of calls. -/
def setKeys : List (Op × Time) → List Key
  | [] => []
  | (.set key _ _, _) :: rest => key :: setKeys rest
  | (_, _) :: rest => setKeys rest

/-- Whether `key` is live at `now` after the calls `ops` on a fresh map, told from the
calls alone: its most recent effective call is an accepted `Set`, not followed by a `Remove`
of the key or a `Flush`, whose expiry is strictly after `now`. -/
def liveAfter (ops : List (Op × Time)) (now : Time) (key : Key) : Bool :=
  match ops.foldl (track key) none with
  | some it => decide (now < it.Expires)
  | none => false

/-- The number of distinct keys that are live at `now` after the calls `ops` on a fresh
map, told from the calls alone. -/
def liveKeyCount (ops : List (Op × Time)) (now : Time) : Nat :=
  ((setKeys ops).dedup.filter (liveAfter ops now)).length

/-- All entries resident in the map, shard by shard. -/
def entries (m : ConcurrentMap) : List (Sigma fun _ : Key => ConcurrentMapItem) :=
  m.flatMap fun shard => shard.items.entries

/-- The expiry test `item.Expires.After(now)` of `Count` and `Iter`. -/
def liveAt (now : Time) (e : Sigma fun _ : Key => ConcurrentMapItem) : Bool :=
  decide (e.2.Expires > now)

/-- The calls of `TestCount`: for `i` from 0 to 99, at instant `i`, the key `strconv.Itoa(i)`
is set with its own name as value and an expiry one minute (60000 ms) later. -/
def hundredSets : List (Op × Time) :=
  (List.range 100).map fun i =>
    (Op.set (str (toString i)) (some (str (toString i))) ((i : Int) + 60000), (i : Int))

/-- The interleavings, call by call, of two sequences of calls: `Interleaving a b l` says
that `l` is the calls of `a` and of `b`, each sequence in its own order. -/
inductive Interleaving {α : Type} : List α → List α → List α → Prop where
  | nil : Interleaving [] [] []
  | left (x : α) {a b l : List α} : Interleaving a b l → Interleaving (x :: a) b (x :: l)
  | right (y : α) {a b l : List α} : Interleaving a b l → Interleaving a (y :: b) (y :: l)

/-- Two sequences of calls over disjoint key sets: no key touched by a call of the first is
touched by a call of the second. -/
def DisjointKeys (a b : List (Op × Time)) : Prop :=
  ∀ key, ∀ x ∈ a, ∀ y ∈ b, Op.touches key x.1 = true → Op.touches key y.1 = false

/-- One writer of `TestConcurrent`: for `i` from 0 to `n - 1`, at instant `i`, the key
`strconv.Itoa(lo + i)` is set for a minute (60000 ms). -/
def writer (lo n : Nat) : List (Op × Time) :=
  (List.range n).map fun i =>
    (Op.set (str (toString (lo + i))) (some (str (toString (lo + i)))) ((i : Int) + 60000),
      (i : Int))

/-- The interleaving that takes one call of each sequence in turn. -/
def alternate {α : Type} : List α → List α → List α
  | x :: xs, y :: ys => x :: y :: alternate xs ys
  | xs, [] => xs
  | [], ys => ys

/-! ## Byte slices as references

The embedding above holds a `[]byte` by its bytes, which is all that the other operations
observe. To tell whether two slices share their bytes, `Set` and `Get` are embedded a second
time over a memory of backing arrays: a non-nil slice is a window of one backing array, and
an assignment `s[i] = b` changes that array for every slice that looks at it. -/

/-- The memory: the backing arrays allocated so far; the address of an array is its
position. -/
abbrev Heap := List (List UInt8)

/-- A non-nil `[]byte`: the window of length `len` that starts at offset `off` of the backing
array at address `addr`. -/
structure SliceRef where
  addr : Nat
  off : Nat
  len : Nat
  deriving DecidableEq

/-- The length `len(s)` of a slice; a nil slice has length 0. -/
def sliceLen : Option SliceRef → Nat
  | none => 0
  | some s => s.len

/-- The bytes seen through a slice; a nil slice shows none. -/
def sliceBytes (heap : Heap) : Option SliceRef → List UInt8
  | none => []
  | some s => (((heap[s.addr]?).getD []).drop s.off).take s.len

/-- The assignment `s[i] = b`; it panics when `i` is not below `len(s)`. -/
def sliceStore (heap : Heap) (s : SliceRef) (i : Nat) (b : UInt8) : Except Panic Heap :=
  if i < s.len then .ok (heap.set s.addr (((heap[s.addr]?).getD []).set (s.off + i) b))
  else .error .indexOutOfRange

/-- The struct `ConcurrentMapItem`, its `Value` held as a slice reference. -/
structure ItemRef where
  Expires : Time
  Value : Option SliceRef
  deriving DecidableEq

/-- The struct `ConcurrentMapShared` over `ItemRef`. -/
structure SharedRef where
  items : AList (fun _ : Key => ItemRef)
  deriving DecidableEq

/-- The memory together with the map. -/
structure Store where
  heap : Heap
  shards : List SharedRef
  deriving DecidableEq

/-- The method `GetShard`, over `SharedRef`. -/
def GetShardRef (SHARD_COUNT : Int) (m : List SharedRef) (key : Key) :
    Except Panic (Nat × SharedRef) :=
  match shardIndex intBits SHARD_COUNT key with
  | .error e => .error e
  | .ok idx =>
    if idx < 0 then .error .indexOutOfRange
    else
      match m[idx.toNat]? with
      | none => .error .indexOutOfRange
      | some shard => .ok (idx.toNat, shard)

/-- The method `Set`, over slice references: `make([]byte, len(value))` allocates a fresh
zeroed backing array, `copy` fills it with the bytes of `value`, and the entry stored is the
slice over that fresh array. -/
def SetRef (SHARD_COUNT : Int) (st : Store) (key : Key) (value : Option SliceRef)
    (expiresAt now : Time) : Except Panic Store :=
  if expiresAt > now then
    match GetShardRef SHARD_COUNT st.shards key with
    | .error e => .error e
    | .ok (i, shard) =>
      let n := sliceLen value
      let fresh := (sliceBytes st.heap value ++ List.replicate n 0).take n
      let newItem : ItemRef := { Value := some ⟨st.heap.length, 0, n⟩, Expires := expiresAt }
      .ok { heap := st.heap ++ [fresh],
            shards := st.shards.set i { items := shard.items.insert key newItem } }
  else .ok st

/-- The method `Get`, over slice references: it returns `val.Value`, the stored slice. -/
def GetRef (SHARD_COUNT : Int) (st : Store) (key : Key) (now : Time) :
    Except Panic (Option SliceRef × Bool) :=
  match GetShardRef SHARD_COUNT st.shards key with
  | .error e => .error e
  | .ok (_, shard) =>
    let (val, ok) : ItemRef × Bool :=
      match shard.items.lookup key with
      | some v => (v, true)
      | none => (⟨0, none⟩, false)
    if val.Expires < now then .ok (none, false)
    else .ok (val.Value, ok)

/-- A caller sets `k` from its buffer, takes the value back with `Get`, overwrites byte `i`
of the slice it got with `b`, and calls `Get` again: the bytes seen through the second
result. -/
def getStoreGet (SHARD_COUNT : Int) (st : Store) (key : Key) (value : Option SliceRef)
    (expiresAt now0 now1 now2 : Time) (i : Nat) (b : UInt8) : Except Panic (List UInt8) :=
  match SetRef SHARD_COUNT st key value expiresAt now0 with
  | .error e => .error e
  | .ok st1 =>
    match GetRef SHARD_COUNT st1 key now1 with
    | .error e => .error e
    | .ok (none, _) => .error .indexOutOfRange
    | .ok (some r, _) =>
      match sliceStore st1.heap r i b with
      | .error e => .error e
      | .ok heap2 =>
        match GetRef SHARD_COUNT { st1 with heap := heap2 } key now2 with
        | .error e => .error e
        | .ok (r2, _) => .ok (sliceBytes heap2 r2)

/-- The tuple `Tuple{key, val}` that `Iter` sends for a resident entry. -/
def tupleOf (e : Sigma fun _ : Key => ConcurrentMapItem) : Tuple := ⟨e.1, e.2⟩

/-- Every key resident in the table of slot `i` is routed to slot `i`. -/
def Placed (SHARD_COUNT : Int) (m : ConcurrentMap) : Prop :=
  ∀ (i : Nat) (shard : ConcurrentMapShared), m[i]? = some shard →
    ∀ key ∈ shard.items.keys, slot SHARD_COUNT key = i

/-! ## Routing -/

theorem fnvWrite_lt (cs : List UInt8) : ∀ hash : Nat, hash < 2 ^ 32 → fnvWrite hash cs < 2 ^ 32 := by
  induction cs with
  | nil => intro hash h; simpa [fnvWrite] using h
  | cons c cs ih =>
    intro hash _
    simp only [fnvWrite]
    apply ih
    apply Nat.xor_lt_two_pow
    · exact Nat.mod_lt _ (by norm_num)
    · have := c.toNat_lt
      omega

theorem Sum32_lt (key : Key) : Sum32 key < 2 ^ 32 :=
  fnvWrite_lt key offset32 (by unfold offset32; norm_num)

theorem intOfUint32_64 (u : Nat) (h : u < 2 ^ 32) : intOfUint32 64 u = (u : Int) := by
  unfold intOfUint32
  have h1 : u % 2 ^ 64 = u := Nat.mod_eq_of_lt (by omega)
  rw [h1]
  have h2 : u < 2 ^ (64 - 1) := lt_trans h (by norm_num)
  rw [if_pos h2]

theorem slot_lt {N : Int} (hN : 0 < N) (key : Key) : slot N key < N.toNat := by
  unfold slot
  apply Nat.mod_lt
  omega

theorem shardIndex_eq {N : Int} (hN : 0 < N) (key : Key) :
    shardIndex intBits N key = .ok ((slot N key : Nat) : Int) := by
  unfold shardIndex intBits
  rw [intOfUint32_64 _ (Sum32_lt key), if_neg (by omega)]
  congr 1
  obtain ⟨n, rfl⟩ := Int.eq_ofNat_of_zero_le (le_of_lt hN)
  simp [slot, Int.tmod]

theorem GetShard_eq {N : Int} {m : ConcurrentMap} (h : WellFormed N m) (key : Key) :
    ∃ shard, m[slot N key]? = some shard ∧
      ConcurrentMap.GetShard N m key = .ok (slot N key, shard) := by
  obtain ⟨hN, hlen⟩ := h
  have hlt : slot N key < m.length := by rw [hlen]; exact slot_lt hN key
  refine ⟨m[slot N key], List.getElem?_eq_getElem hlt, ?_⟩
  unfold ConcurrentMap.GetShard
  rw [shardIndex_eq hN]
  simp [List.getElem?_eq_getElem hlt]

/-! ## The keyed operations on a well-formed map -/

theorem Get_eq {N : Int} {m : ConcurrentMap} (h : WellFormed N m) (key : Key) (now : Time) :
    ConcurrentMap.Get N m key now = .ok (getResult (stored N m key) now) := by
  obtain ⟨shard, hs, hg⟩ := GetShard_eq h key
  unfold ConcurrentMap.Get
  rw [hg]
  simp only [stored, hs, lookup2, getResult]
  cases hl : shard.items.lookup key with
  | none =>
    simp only [ConcurrentMapItem.zero]
    split <;> rfl
  | some it =>
    simp only
    split <;> rfl

theorem Has_eq {N : Int} {m : ConcurrentMap} (h : WellFormed N m) (key : Key) (now : Time) :
    ConcurrentMap.Has N m key now = .ok (hasResult (stored N m key) now) := by
  obtain ⟨shard, hs, hg⟩ := GetShard_eq h key
  unfold ConcurrentMap.Has
  rw [hg]
  simp only [stored, hs]
  obtain hl | ⟨it, hl⟩ := Option.eq_none_or_eq_some (shard.items.lookup key)
  · simp [lookup2, hasResult, hl]
  · by_cases hlt : it.Expires < now <;> simp [lookup2, hasResult, hl, hlt]

theorem set_of_getElem? {α : Type} (l : List α) :
    ∀ (i : Nat) (a : α), l[i]? = some a → l.set i a = l := by
  induction l with
  | nil => intro i a h; simp at h
  | cons b l ih =>
    intro i a h
    cases i with
    | zero =>
      simp only [List.getElem?_cons_zero, Option.some.injEq] at h
      simp [h]
    | succ i =>
      simp only [List.getElem?_cons_succ] at h
      simp [ih i a h]

theorem WellFormed_set {N : Int} {m : ConcurrentMap} (h : WellFormed N m) (i : Nat)
    (s : ConcurrentMapShared) : WellFormed N (m.set i s) :=
  ⟨h.1, by rw [List.length_set]; exact h.2⟩

theorem stored_set_same {N : Int} {m : ConcurrentMap} (h : WellFormed N m) (key : Key)
    (s : ConcurrentMapShared) :
    stored N (m.set (slot N key) s) key = s.items.lookup key := by
  have hlt : slot N key < m.length := by rw [h.2]; exact slot_lt h.1 key
  simp [stored, List.getElem?_set_self, hlt]

theorem stored_set_other {N : Int} {m : ConcurrentMap} (key key1 : Key)
    (shard s : ConcurrentMapShared) (hs : m[slot N key]? = some shard)
    (hl : s.items.lookup key1 = shard.items.lookup key1) :
    stored N (m.set (slot N key) s) key1 = stored N m key1 := by
  by_cases hi : slot N key = slot N key1
  · have hlt : slot N key1 < m.length := by
      rw [← hi]
      exact (List.getElem?_eq_some.1 hs).1
    rw [hi] at hs ⊢
    simp [stored, List.getElem?_set_self, hlt, hs, hl]
  · simp [stored, List.getElem?_set_ne hi]

theorem Set_eq {N : Int} {m : ConcurrentMap} (h : WellFormed N m) (key : Key)
    (value : Option (List UInt8)) (t now : Time) (ht : now < t) :
    ∃ m1, ConcurrentMap.Set N m key value t now = .ok m1 ∧ WellFormed N m1 ∧
      stored N m1 key = some ⟨t, some (value.getD [])⟩ ∧
      ∀ key1, key1 ≠ key → stored N m1 key1 = stored N m key1 := by
  obtain ⟨shard, hs, hg⟩ := GetShard_eq h key
  refine ⟨m.set (slot N key) ⟨shard.items.insert key ⟨t, some (value.getD [])⟩⟩, ?_,
    WellFormed_set h _ _, ?_, ?_⟩
  · unfold ConcurrentMap.Set
    rw [if_pos (by exact ht), hg]
  · rw [stored_set_same h]
    exact AList.lookup_insert _
  · intro key1 hne
    apply stored_set_other key key1 shard _ hs
    exact AList.lookup_insert_ne hne

theorem Remove_eq {N : Int} {m : ConcurrentMap} (h : WellFormed N m) (key : Key) :
    ∃ m1, ConcurrentMap.Remove N m key = .ok m1 ∧ WellFormed N m1 ∧
      stored N m1 key = none ∧
      (∀ key1, key1 ≠ key → stored N m1 key1 = stored N m key1) ∧
      (stored N m key = none → m1 = m) := by
  obtain ⟨shard, hs, hg⟩ := GetShard_eq h key
  refine ⟨m.set (slot N key) ⟨shard.items.erase key⟩, ?_, WellFormed_set h _ _, ?_, ?_, ?_⟩
  · unfold ConcurrentMap.Remove
    rw [hg]
  · rw [stored_set_same h]
    exact AList.lookup_erase _ _
  · intro key1 hne
    apply stored_set_other key key1 shard _ hs
    exact AList.lookup_erase_ne hne
  · intro hnone
    have hl : shard.items.lookup key = none := by simpa [stored, hs] using hnone
    have he : shard.items.erase key = shard.items := by
      apply AList.ext
      simp only [AList.erase]
      exact List.kerase_of_not_mem_keys (AList.lookup_eq_none.1 hl)
    rw [he]
    exact set_of_getElem? m _ _ hs

/-! ## Flush and New -/

theorem flushLoop_spec : ∀ (n i : Nat) (m : ConcurrentMap), i + n ≤ m.length →
    ∃ m1, ConcurrentMap.flushLoop n i m = .ok m1 ∧ m1.length = m.length ∧
      ∀ j, m1[j]? = if i ≤ j ∧ j < i + n then some ⟨∅⟩ else m[j]? := by
  intro n
  induction n with
  | zero =>
    intro i m _
    refine ⟨m, rfl, rfl, ?_⟩
    intro j
    rw [if_neg (by omega)]
  | succ n ih =>
    intro i m h
    have hi : i < m.length := by omega
    obtain ⟨m1, h1, h2, h3⟩ := ih (i + 1) (m.set i ⟨∅⟩) (by rw [List.length_set]; omega)
    refine ⟨m1, ?_, ?_, ?_⟩
    · simp only [ConcurrentMap.flushLoop, if_pos hi]
      exact h1
    · rw [h2, List.length_set]
    · intro j
      rw [h3 j]
      by_cases hj : i = j
      · subst hj
        rw [if_neg (by omega), if_pos (by omega), List.getElem?_set_self hi]
      · rw [List.getElem?_set_ne hj]
        by_cases hj2 : i + 1 ≤ j ∧ j < i + 1 + n
        · rw [if_pos hj2, if_pos (by omega)]
        · rw [if_neg hj2, if_neg (by omega)]

theorem Flush_eq {N : Int} {m : ConcurrentMap} (h : WellFormed N m) :
    ConcurrentMap.Flush N m = .ok (List.replicate N.toNat ⟨∅⟩) := by
  obtain ⟨m1, h1, h2, h3⟩ := flushLoop_spec N.toNat 0 m (by rw [h.2]; omega)
  unfold ConcurrentMap.Flush
  rw [h1]
  congr 1
  apply List.ext_getElem?
  intro j
  rw [h3 j]
  by_cases hj : j < N.toNat
  · rw [if_pos (by omega), List.getElem?_replicate, if_pos hj]
  · rw [if_neg (by omega), List.getElem?_replicate, if_neg hj]
    exact List.getElem?_eq_none (by rw [h.2]; omega)

theorem New_eq {N : Int} (hN : 0 < N) :
    ConcurrentMap.New N = .ok (List.replicate N.toNat ⟨∅⟩) := by
  unfold ConcurrentMap.New
  rw [if_neg (by omega)]

theorem WellFormed_replicate {N : Int} (hN : 0 < N) :
    WellFormed N (List.replicate N.toNat ⟨∅⟩) :=
  ⟨hN, List.length_replicate _ _⟩

theorem stored_replicate (N : Int) (n : Nat) (key : Key) :
    stored N (List.replicate n ⟨∅⟩) key = none := by
  unfold stored
  rw [List.getElem?_replicate]
  split_ifs <;> rfl

theorem step_track {N : Int} {m : ConcurrentMap} (h : WellFormed N m) (c : Op × Time) :
    ∃ m1, step N m c.1 c.2 = .ok m1 ∧ WellFormed N m1 ∧
      ∀ key, stored N m1 key = track key (stored N m key) c := by
  obtain ⟨op, now⟩ := c
  cases op with
  | set key1 value t =>
    by_cases ht : now < t
    · obtain ⟨m1, h1, h2, h3, h4⟩ := Set_eq h key1 value t now ht
      refine ⟨m1, h1, h2, ?_⟩
      intro key
      by_cases hk : key1 = key
      · subst hk
        simp [track, ht, h3]
      · have hk2 : key ≠ key1 := fun e => hk e.symm
        simp [track, hk, h4 key hk2]
    · refine ⟨m, ?_, h, ?_⟩
      · simp only [step, ConcurrentMap.Set]
        rw [if_neg (by simpa using ht)]
      · intro key
        simp [track, ht]
  | remove key1 =>
    obtain ⟨m1, h1, h2, h3, h4, _⟩ := Remove_eq h key1
    refine ⟨m1, h1, h2, ?_⟩
    intro key
    by_cases hk : key1 = key
    · subst hk
      simp [track, h3]
    · have hk2 : key ≠ key1 := fun e => hk e.symm
      simp [track, hk, h4 key hk2]
  | flush =>
    refine ⟨List.replicate N.toNat ⟨∅⟩, Flush_eq h, WellFormed_replicate h.1, ?_⟩
    intro key
    simp [track, stored_replicate]

theorem run_track {N : Int} (ops : List (Op × Time)) :
    ∀ {m : ConcurrentMap}, WellFormed N m →
      ∃ m1, run N m ops = .ok m1 ∧ WellFormed N m1 ∧
        ∀ key, stored N m1 key = ops.foldl (track key) (stored N m key) := by
  induction ops with
  | nil =>
    intro m h
    exact ⟨m, rfl, h, fun _ => rfl⟩
  | cons c ops ih =>
    intro m h
    obtain ⟨m1, h1, h2, h3⟩ := step_track h c
    obtain ⟨m2, h4, h5, h6⟩ := ih h2
    refine ⟨m2, ?_, h5, ?_⟩
    · obtain ⟨op, now⟩ := c
      simp only [run]
      rw [h1]
      exact h4
    · intro key
      rw [h6 key, h3 key, List.foldl_cons]

theorem exec_track {N : Int} (hN : 0 < N) (ops : List (Op × Time)) :
    ∃ m, exec N ops = .ok m ∧ WellFormed N m ∧
      ∀ key, stored N m key = ops.foldl (track key) none := by
  obtain ⟨m, h1, h2, h3⟩ := run_track ops (WellFormed_replicate hN)
  refine ⟨m, ?_, h2, ?_⟩
  · unfold exec
    rw [New_eq hN]
    exact h1
  · intro key
    rw [h3 key, stored_replicate]

theorem foldl_track_untouched (key : Key) (ops : List (Op × Time))
    (h : ∀ c ∈ ops, Op.touches key c.1 = false) (e : Option ConcurrentMapItem) :
    ops.foldl (track key) e = e := by
  induction ops with
  | nil => rfl
  | cons c ops ih =>
    rw [List.foldl_cons]
    have hc := h c (List.mem_cons_self _ _)
    have he : track key e c = e := by
      obtain ⟨op, now⟩ := c
      cases op with
      | set key1 value t =>
        have hne : ¬ key1 = key := by simpa [Op.touches] using hc
        simp [track, hne]
      | remove key1 =>
        have hne : ¬ key1 = key := by simpa [Op.touches] using hc
        simp [track, hne]
      | flush => simp [Op.touches] at hc
    rw [he]
    exact ih fun c1 hc1 => h c1 (List.mem_cons_of_mem _ hc1)

theorem foldl_track_never_set (key : Key) (ops : List (Op × Time))
    (h : ∀ c ∈ ops, ∀ value t, c.1 ≠ Op.set key value t) :
    ops.foldl (track key) none = none := by
  induction ops with
  | nil => rfl
  | cons c ops ih =>
    rw [List.foldl_cons]
    have hc := h c (List.mem_cons_self _ _)
    have he : track key none c = none := by
      obtain ⟨op, now⟩ := c
      cases op with
      | set key1 value t =>
        have hne : ¬ key1 = key := fun e => hc value t (by rw [e])
        simp [track, hne]
      | remove key1 => simp [track]
      | flush => simp [track]
    rw [he]
    exact ih fun c1 hc1 => h c1 (List.mem_cons_of_mem _ hc1)

/-! ## Count on a map of empty tables -/

theorem countLoop_replicate (clock : Nat → Time) (k : Nat) :
    ∀ (n i tick count : Nat), i + n ≤ k →
      ConcurrentMap.countLoop clock (List.replicate k ⟨∅⟩) n i tick count = .ok count := by
  intro n
  induction n with
  | zero => intro i tick count _; rfl
  | succ n ih =>
    intro i tick count h
    simp only [ConcurrentMap.countLoop, List.getElem?_replicate]
    rw [if_pos (by omega)]
    exact ih (i + 1) tick count (by omega)

theorem Count_replicate (N : Int) (clock : Nat → Time) :
    ConcurrentMap.Count N (List.replicate N.toNat ⟨∅⟩) clock = .ok 0 :=
  countLoop_replicate clock N.toNat N.toNat 0 0 0 (by omega)

/-! ## Count under a clock that stands still -/

theorem countItems_const (now : Time) (es : List (Sigma fun _ : Key => ConcurrentMapItem)) :
    ∀ tick count : Nat, ConcurrentMap.countItems (fun _ => now) es tick count
      = (tick + es.length, count + es.countP (liveAt now)) := by
  induction es with
  | nil => intro tick count; simp [ConcurrentMap.countItems]
  | cons e es ih =>
    intro tick count
    simp only [ConcurrentMap.countItems]
    by_cases hl : e.2.Expires > now
    · have hp : liveAt now e = true := by simp [liveAt, hl]
      rw [if_pos hl, ih, List.countP_cons_of_pos (p := liveAt now) es hp, List.length_cons]
      congr 1 <;> omega
    · have hp : ¬ liveAt now e = true := by simp [liveAt, hl]
      rw [if_neg hl, ih, List.countP_cons_of_neg (p := liveAt now) es hp, List.length_cons]
      congr 1; omega

theorem entries_cons (shard : ConcurrentMapShared) (m : ConcurrentMap) :
    entries (shard :: m) = shard.items.entries ++ entries m := by
  simp [entries]

theorem countLoop_const (now : Time) (m : ConcurrentMap) :
    ∀ n i tick count : Nat, i + n = m.length →
      ConcurrentMap.countLoop (fun _ => now) m n i tick count
        = .ok (count + (entries (m.drop i)).countP (liveAt now)) := by
  intro n
  induction n with
  | zero =>
    intro i tick count h
    have hd : m.drop i = [] := List.drop_eq_nil_of_le (by omega)
    simp [ConcurrentMap.countLoop, hd, entries]
  | succ n ih =>
    intro i tick count h
    have hi : i < m.length := by omega
    simp only [ConcurrentMap.countLoop, List.getElem?_eq_getElem hi]
    rw [countItems_const, ih (i + 1) _ _ (by omega), List.drop_eq_getElem_cons hi, entries_cons,
      List.countP_append, Nat.add_assoc]

theorem Count_const {N : Int} {m : ConcurrentMap} (h : WellFormed N m) (now : Time) :
    ConcurrentMap.Count N m (fun _ => now) = .ok ((entries m).countP (liveAt now)) := by
  unfold ConcurrentMap.Count
  rw [countLoop_const now m N.toNat 0 0 0 (by rw [h.2]; omega)]
  simp

theorem entries_set (s : ConcurrentMapShared) : ∀ (m : ConcurrentMap) (i : Nat)
    (old : ConcurrentMapShared), m[i]? = some old →
      ∃ pre post, entries m = pre ++ (old.items.entries ++ post) ∧
        entries (m.set i s) = pre ++ (s.items.entries ++ post) := by
  intro m
  induction m with
  | nil => intro i old h; simp at h
  | cons a m ih =>
    intro i old h
    cases i with
    | zero =>
      simp only [List.getElem?_cons_zero, Option.some.injEq] at h
      subst h
      exact ⟨[], entries m, by simp [entries_cons], by simp [entries_cons]⟩
    | succ i =>
      simp only [List.getElem?_cons_succ] at h
      obtain ⟨pre, post, h1, h2⟩ := ih i old h
      refine ⟨a.items.entries ++ pre, post, ?_, ?_⟩
      · rw [entries_cons, h1, List.append_assoc]
      · rw [List.set_cons_succ, entries_cons, h2, List.append_assoc]

/-! ## The shard-placement invariant -/

theorem Placed_replicate (N : Int) (n : Nat) : Placed N (List.replicate n ⟨∅⟩) := by
  intro i shard h key hkey
  rw [List.getElem?_replicate] at h
  split_ifs at h
  cases h
  simp at hkey

theorem Placed_set {N : Int} {m : ConcurrentMap} (hp : Placed N m) (i : Nat)
    (s : ConcurrentMapShared) (hs : ∀ key ∈ s.items.keys, slot N key = i) :
    Placed N (m.set i s) := by
  intro j shard h key hkey
  rw [List.getElem?_set] at h
  by_cases hij : i = j
  · rw [if_pos hij] at h
    split_ifs at h
    cases h
    rw [← hij]
    exact hs key hkey
  · rw [if_neg hij] at h
    exact hp j shard h key hkey

theorem step_placed {N : Int} {m m1 : ConcurrentMap} (h : WellFormed N m) (hp : Placed N m)
    (c : Op × Time) (hstep : step N m c.1 c.2 = .ok m1) : Placed N m1 := by
  obtain ⟨op, now⟩ := c
  cases op with
  | set key value t =>
    obtain ⟨shard, hs, hg⟩ := GetShard_eq h key
    simp only [step, ConcurrentMap.Set] at hstep
    by_cases ht : t > now
    · rw [if_pos ht, hg] at hstep
      cases hstep
      apply Placed_set hp
      intro key1 hkey1
      rcases (AList.mem_insert shard.items).1 (AList.mem_keys.2 hkey1) with h1 | h1
      · rw [h1]
      · exact hp _ shard hs key1 (AList.mem_keys.1 h1)
    · rw [if_neg ht] at hstep
      cases hstep
      exact hp
  | remove key =>
    obtain ⟨shard, hs, hg⟩ := GetShard_eq h key
    simp only [step, ConcurrentMap.Remove] at hstep
    rw [hg] at hstep
    cases hstep
    apply Placed_set hp
    intro key1 hkey1
    have h1 := (AList.mem_erase.1 (AList.mem_keys.2 hkey1)).2
    exact hp _ shard hs key1 (AList.mem_keys.1 h1)
  | flush =>
    simp only [step] at hstep
    rw [Flush_eq h] at hstep
    cases hstep
    exact Placed_replicate N _

theorem run_placed {N : Int} (ops : List (Op × Time)) :
    ∀ {m m1 : ConcurrentMap}, WellFormed N m → Placed N m → run N m ops = .ok m1 →
      Placed N m1 := by
  induction ops with
  | nil =>
    intro m m1 _ hp h
    simp only [run] at h
    cases h
    exact hp
  | cons c ops ih =>
    intro m m1 hwf hp h
    obtain ⟨m2, h1, h2, _⟩ := step_track hwf c
    obtain ⟨op, now⟩ := c
    simp only [run] at h
    rw [h1] at h
    exact ih h2 (step_placed hwf hp (op, now) h1) h

theorem exec_placed {N : Int} (hN : 0 < N) (ops : List (Op × Time)) {m : ConcurrentMap}
    (h : exec N ops = .ok m) : Placed N m := by
  unfold exec at h
  rw [New_eq hN] at h
  exact run_placed ops (WellFormed_replicate hN) (Placed_replicate N _) h

theorem mem_entries_of_stored {N : Int} {m : ConcurrentMap} {key : Key}
    {it : ConcurrentMapItem} (h : stored N m key = some it) :
    (⟨key, it⟩ : Sigma fun _ : Key => ConcurrentMapItem) ∈ entries m := by
  unfold stored at h
  cases hs : m[slot N key]? with
  | none => rw [hs] at h; cases h
  | some shard =>
    rw [hs] at h
    simp only at h
    unfold entries
    exact List.mem_flatMap.2 ⟨shard, List.getElem?_mem hs, AList.mem_lookup_iff.1 h⟩

theorem stored_of_mem_entries {N : Int} {m : ConcurrentMap} (hp : Placed N m) {key : Key}
    {it : ConcurrentMapItem}
    (h : (⟨key, it⟩ : Sigma fun _ : Key => ConcurrentMapItem) ∈ entries m) :
    stored N m key = some it := by
  unfold entries at h
  obtain ⟨shard, hmem, he⟩ := List.mem_flatMap.1 h
  obtain ⟨i, hi⟩ := List.mem_iff_getElem?.1 hmem
  have hslot : slot N key = i := hp i shard hi key (List.mem_keys_of_mem he)
  unfold stored
  rw [hslot, hi]
  exact AList.mem_lookup_iff.2 he

theorem entries_keys_nodup {N : Int} {m : ConcurrentMap} (hp : Placed N m) :
    (entries m).keys.Nodup := by
  have hk : (entries m).keys = m.flatMap fun shard => shard.items.keys := by
    simp [entries, List.keys, List.map_flatMap, AList.keys]
  rw [hk, List.nodup_flatMap]
  refine ⟨fun shard _ => shard.items.keys_nodup, ?_⟩
  rw [List.pairwise_iff_getElem]
  intro i j hi hj hij
  simp only [Function.onFun]
  rw [List.disjoint_left]
  intro key h1 h2
  have e1 := hp i m[i] (List.getElem?_eq_getElem hi) key h1
  have e2 := hp j m[j] (List.getElem?_eq_getElem hj) key h2
  omega

/-! ## Count against the calls that built the map -/

theorem mem_setKeys {key : Key} {value : Option (List UInt8)} {t now : Time} :
    ∀ {ops : List (Op × Time)}, (Op.set key value t, now) ∈ ops → key ∈ setKeys ops := by
  intro ops
  induction ops with
  | nil => intro h; cases h
  | cons c ops ih =>
    intro h
    obtain ⟨op, now1⟩ := c
    rcases List.mem_cons.1 h with h1 | h1
    · cases h1
      simp [setKeys]
    · cases op with
      | set key1 value1 t1 =>
        simp only [setKeys]
        exact List.mem_cons_of_mem _ (ih h1)
      | remove key1 => simpa [setKeys] using ih h1
      | flush => simpa [setKeys] using ih h1

theorem foldl_track_some_mem {key : Key} {ops : List (Op × Time)} {it : ConcurrentMapItem}
    (h : ops.foldl (track key) none = some it) : key ∈ setKeys ops := by
  by_contra hk
  have hnone := foldl_track_never_set key ops (by
    intro c hc value t hop
    apply hk
    obtain ⟨op, now⟩ := c
    simp only at hop
    subst hop
    exact mem_setKeys hc)
  rw [hnone] at h
  cases h

theorem countP_eq_liveKeyCount {N : Int} {m : ConcurrentMap} (hp : Placed N m)
    (ops : List (Op × Time)) (now : Time)
    (hst : ∀ key, stored N m key = ops.foldl (track key) none) :
    (entries m).countP (liveAt now) = liveKeyCount ops now := by
  have nd1 : (((entries m).filter (liveAt now)).map Sigma.fst).Nodup :=
    List.Nodup.sublist ((List.filter_sublist _).map Sigma.fst) (entries_keys_nodup hp)
  have nd2 : ((setKeys ops).dedup.filter (liveAfter ops now)).Nodup :=
    (List.nodup_dedup _).filter _
  have hperm : (((entries m).filter (liveAt now)).map Sigma.fst).Perm
      ((setKeys ops).dedup.filter (liveAfter ops now)) := by
    rw [List.perm_ext_iff_of_nodup nd1 nd2]
    intro key
    constructor
    · intro h
      obtain ⟨⟨key1, it⟩, he, hk⟩ := List.mem_map.1 h
      simp only at hk
      subst hk
      obtain ⟨hmem, hlive⟩ := List.mem_filter.1 he
      have hs := stored_of_mem_entries hp hmem
      rw [hst] at hs
      refine List.mem_filter.2 ⟨List.mem_dedup.2 (foldl_track_some_mem hs), ?_⟩
      simp only [liveAfter, hs]
      simpa [liveAt] using hlive
    · intro h
      obtain ⟨_, hlive⟩ := List.mem_filter.1 h
      simp only [liveAfter] at hlive
      cases hf : ops.foldl (track key) none with
      | none => rw [hf] at hlive; cases hlive
      | some it =>
        rw [hf] at hlive
        have hs : stored N m key = some it := by rw [hst, hf]
        refine List.mem_map.2 ⟨⟨key, it⟩, List.mem_filter.2 ⟨mem_entries_of_stored hs, ?_⟩, rfl⟩
        simpa [liveAt] using hlive
  rw [List.countP_eq_length_filter, liveKeyCount, ← hperm.length_eq, List.length_map]

/-! ## Overwriting an entry -/

theorem GetShard_set {N : Int} {m : ConcurrentMap} {key : Key} {i : Nat}
    {shard : ConcurrentMapShared} (h : ConcurrentMap.GetShard N m key = .ok (i, shard))
    (s : ConcurrentMapShared) :
    m[i]? = some shard ∧ ConcurrentMap.GetShard N (m.set i s) key = .ok (i, s) := by
  unfold ConcurrentMap.GetShard at h ⊢
  cases hidx : shardIndex intBits N key with
  | error e => rw [hidx] at h; cases h
  | ok idx =>
    rw [hidx] at h
    simp only at h ⊢
    by_cases hneg : idx < 0
    · rw [if_pos hneg] at h; cases h
    · rw [if_neg hneg] at h
      rw [if_neg hneg]
      cases hs : m[idx.toNat]? with
      | none => rw [hs] at h; cases h
      | some shard1 =>
        rw [hs] at h
        simp only [Except.ok.injEq, Prod.mk.injEq] at h
        obtain ⟨h1, h2⟩ := h
        subst h1
        subst h2
        have hlt : idx.toNat < m.length := (List.getElem?_eq_some.1 hs).1
        exact ⟨hs, by rw [List.getElem?_set_self hlt]⟩

theorem Set_Set (N : Int) (m : ConcurrentMap) (key : Key) (v1 v2 : Option (List UInt8))
    (t1 t2 now1 now2 : Time) (h1 : now1 < t1) (h2 : now2 < t2) :
    (ConcurrentMap.Set N m key v1 t1 now1).bind
        (fun m1 => ConcurrentMap.Set N m1 key v2 t2 now2)
      = ConcurrentMap.Set N m key v2 t2 now2 := by
  unfold ConcurrentMap.Set
  rw [if_pos (by exact h1), if_pos (by exact h2)]
  cases hg : ConcurrentMap.GetShard N m key with
  | error e => rfl
  | ok r =>
    obtain ⟨i, shard⟩ := r
    simp only [Except.bind]
    rw [(GetShard_set hg _).2, if_pos (show t2 > now2 from h2)]
    simp only [List.set_set, AList.insert_insert]

theorem countP_insert_entries (now : Time) (items : Items) (key : Key)
    (it : ConcurrentMapItem) (h : now < it.Expires) :
    (items.insert key it).entries.countP (liveAt now)
      = ((items.insert key it).erase key).entries.countP (liveAt now) + 1 := by
  have hp : liveAt now ⟨key, it⟩ = true := by simpa [liveAt] using h
  have he : ((items.insert key it).erase key).entries = List.kerase key items.entries := by
    simp [AList.erase, AList.insert_entries, List.kerase_cons_eq, List.kerase_kerase]
  rw [he, AList.insert_entries, List.countP_cons_of_pos (p := liveAt now) _ hp]

/-! ## Iter under a clock that stands still -/

theorem iterItems_const (now : Time) (es : List (Sigma fun _ : Key => ConcurrentMapItem)) :
    ∀ tick : Nat, ConcurrentMap.iterItems (fun _ => now) es tick
      = ((es.filter (liveAt now)).map tupleOf, tick + es.length) := by
  induction es with
  | nil => intro tick; simp [ConcurrentMap.iterItems]
  | cons e es ih =>
    intro tick
    simp only [ConcurrentMap.iterItems, ih]
    by_cases hl : e.2.Expires > now
    · have hp : liveAt now e = true := by simp [liveAt, hl]
      rw [if_pos hl, List.filter_cons_of_pos hp, List.map_cons, List.length_cons]
      congr 1
      omega
    · have hp : ¬ liveAt now e = true := by simp [liveAt, hl]
      rw [if_neg hl, List.filter_cons_of_neg hp, List.length_cons]
      congr 1
      omega

theorem iterLoop_const (now : Time) (m : ConcurrentMap) :
    ∀ tick : Nat, ConcurrentMap.iterLoop (fun _ => now) m tick
      = ((entries m).filter (liveAt now)).map tupleOf := by
  induction m with
  | nil => intro tick; simp [ConcurrentMap.iterLoop, entries]
  | cons shard m ih =>
    intro tick
    simp only [ConcurrentMap.iterLoop, iterItems_const, ih, entries_cons, List.filter_append,
      List.map_append]

theorem Iter_const (now : Time) (m : ConcurrentMap) :
    ConcurrentMap.Iter m (fun _ => now)
      = ((entries m).filter (liveAt now)).map tupleOf :=
  iterLoop_const now m 0

/-- At a single instant, `Count` is the number of tuples `Iter` emits. -/
theorem Count_eq_Iter_length {N : Int} {m : ConcurrentMap} (h : WellFormed N m) (now : Time) :
    ConcurrentMap.Count N m (fun _ => now)
      = .ok (ConcurrentMap.Iter m (fun _ => now)).length := by
  rw [Count_const h, Iter_const, List.length_map, List.countP_eq_length_filter]

/-- At a single instant, on a well-formed map that satisfies the placement invariant, `Iter`
emits a key exactly when `Has` reports it and its stored expiry is not that very instant. -/
theorem emitted_iff_Has {N : Int} {m : ConcurrentMap} (h : WellFormed N m) (hp : Placed N m)
    (key : Key) (now : Time) :
    key ∈ (ConcurrentMap.Iter m (fun _ => now)).map Tuple.Key ↔
      ConcurrentMap.Has N m key now = .ok true ∧
        ∀ it, stored N m key = some it → it.Expires ≠ now := by
  rw [Iter_const, Has_eq h]
  constructor
  · intro hmem
    obtain ⟨tu, htu, hk⟩ := List.mem_map.1 hmem
    obtain ⟨⟨key1, it⟩, he, rfl⟩ := List.mem_map.1 htu
    simp only [tupleOf] at hk
    subst hk
    obtain ⟨hmem1, hlive⟩ := List.mem_filter.1 he
    have hs := stored_of_mem_entries hp hmem1
    have hlt : now < it.Expires := by simpa [liveAt] using hlive
    rw [hs]
    refine ⟨?_, ?_⟩
    · simp only [hasResult]
      congr 1
      simpa using hlt.le
    · intro it1 h1
      cases h1
      exact ne_of_gt hlt
  · rintro ⟨hhas, hne⟩
    cases hs : stored N m key with
    | none => rw [hs] at hhas; simp [hasResult] at hhas
    | some it =>
      rw [hs] at hhas
      have hge : now ≤ it.Expires := by simpa [hasResult] using hhas
      have hlt : now < it.Expires := lt_of_le_of_ne hge (fun e => hne it hs e.symm)
      refine List.mem_map.2 ⟨tupleOf ⟨key, it⟩, List.mem_map.2 ⟨⟨key, it⟩, ?_, rfl⟩, rfl⟩
      exact List.mem_filter.2 ⟨mem_entries_of_stored hs, by simpa [liveAt] using hlt⟩

/-! ## Get and Has in terms of the routed shard -/

theorem Get_of_GetShard {N : Int} {m : ConcurrentMap} {key : Key} {i : Nat}
    {shard : ConcurrentMapShared} (hg : ConcurrentMap.GetShard N m key = .ok (i, shard))
    (now : Time) :
    ConcurrentMap.Get N m key now = .ok (getResult (shard.items.lookup key) now) := by
  unfold ConcurrentMap.Get
  rw [hg]
  obtain hl | ⟨it, hl⟩ := Option.eq_none_or_eq_some (shard.items.lookup key)
  · by_cases hlt : ConcurrentMapItem.zero.Expires < now <;>
      simp [lookup2, getResult, hl, hlt, ConcurrentMapItem.zero]
  · by_cases hlt : it.Expires < now <;> simp [lookup2, getResult, hl, hlt]

theorem Has_of_GetShard {N : Int} {m : ConcurrentMap} {key : Key} {i : Nat}
    {shard : ConcurrentMapShared} (hg : ConcurrentMap.GetShard N m key = .ok (i, shard))
    (now : Time) :
    ConcurrentMap.Has N m key now = .ok (hasResult (shard.items.lookup key) now) := by
  unfold ConcurrentMap.Has
  rw [hg]
  obtain hl | ⟨it, hl⟩ := Option.eq_none_or_eq_some (shard.items.lookup key)
  · simp [lookup2, hasResult, hl]
  · by_cases hlt : it.Expires < now <;> simp [lookup2, hasResult, hl, hlt]

theorem getResult_snd (e : Option ConcurrentMapItem) (now : Time) :
    (getResult e now).2 = hasResult e now := by
  cases e with
  | none => rfl
  | some it => by_cases hlt : it.Expires < now <;> simp [getResult, hasResult, hlt]

theorem getResult_of_not_found {e : Option ConcurrentMapItem} {now now1 : Time}
    (h : now ≤ now1) (hf : hasResult e now = false) :
    getResult e now1 = (none, false) ∧ hasResult e now1 = false := by
  cases e with
  | none => exact ⟨rfl, rfl⟩
  | some it =>
    have hlt : it.Expires < now := by simpa [hasResult] using hf
    have hlt1 : it.Expires < now1 := lt_of_lt_of_le hlt h
    simp [getResult, hasResult, hlt1]

/-! ## Routing on reachable states -/

theorem slot_cast {N : Int} (hN : 0 < N) (key : Key) :
    ((slot N key : Nat) : Int) = (Sum32 key : Int) % N := by
  obtain ⟨n, rfl⟩ := Int.eq_ofNat_of_zero_le (le_of_lt hN)
  simp only [slot, Int.toNat_ofNat]
  norm_cast

theorem Placed_disjoint {N : Int} {m : ConcurrentMap} (hp : Placed N m) {i j : Nat}
    {s1 s2 : ConcurrentMapShared} (h1 : m[i]? = some s1) (h2 : m[j]? = some s2) (hij : i ≠ j)
    (key : Key) (hk : key ∈ s1.items.keys) : key ∉ s2.items.keys := by
  intro hk2
  exact hij ((hp i s1 h1 key hk).symm.trans (hp j s2 h2 key hk2))

theorem shardIndex_32_small {N : Int} (hN : 0 < N) (key : Key) (h : Sum32 key < 2 ^ 31) :
    shardIndex 32 N key = .ok ((Sum32 key : Int) % N) := by
  unfold shardIndex intOfUint32
  have h1 : Sum32 key % 2 ^ 32 = Sum32 key := Nat.mod_eq_of_lt (Sum32_lt key)
  rw [h1, if_neg (by omega), if_pos (by simpa using h)]
  congr 1
  obtain ⟨n, rfl⟩ := Int.eq_ofNat_of_zero_le (le_of_lt hN)
  simp [Int.tmod]

/-! ## Iter under a clock that advances -/

theorem iterItems_length_le (now0 : Time) (clock : Nat → Time) (hge : ∀ i, now0 ≤ clock i)
    (es : List (Sigma fun _ : Key => ConcurrentMapItem)) :
    ∀ tick : Nat, (ConcurrentMap.iterItems clock es tick).1.length ≤ es.countP (liveAt now0) := by
  induction es with
  | nil => intro tick; simp [ConcurrentMap.iterItems]
  | cons e es ih =>
    intro tick
    simp only [ConcurrentMap.iterItems]
    by_cases hl : e.2.Expires > clock tick
    · have hp : liveAt now0 e = true := by
        have : now0 < e.2.Expires := lt_of_le_of_lt (hge tick) hl
        simpa [liveAt] using this
      rw [if_pos hl, List.countP_cons_of_pos (p := liveAt now0) es hp, List.length_cons]
      exact Nat.succ_le_succ (ih (tick + 1))
    · rw [if_neg hl]
      exact le_trans (ih (tick + 1)) (by rw [List.countP_cons]; omega)

theorem iterLoop_length_le (now0 : Time) (clock : Nat → Time) (hge : ∀ i, now0 ≤ clock i)
    (m : ConcurrentMap) :
    ∀ tick : Nat, (ConcurrentMap.iterLoop clock m tick).length
      ≤ (entries m).countP (liveAt now0) := by
  induction m with
  | nil => intro tick; simp [ConcurrentMap.iterLoop]
  | cons shard m ih =>
    intro tick
    simp only [ConcurrentMap.iterLoop, List.length_append, entries_cons, List.countP_append]
    exact Nat.add_le_add (iterItems_length_le now0 clock hge _ tick) (ih _)

theorem stored_iff_GetShard {N : Int} {m : ConcurrentMap} (h : WellFormed N m) (key : Key)
    (it : ConcurrentMapItem) :
    stored N m key = some it ↔
      ∃ i shard, ConcurrentMap.GetShard N m key = .ok (i, shard) ∧
        shard.items.lookup key = some it := by
  obtain ⟨shard, hs, hg⟩ := GetShard_eq h key
  simp only [stored, hs, hg, Except.ok.injEq, Prod.mk.injEq]
  constructor
  · intro hl
    exact ⟨_, _, ⟨rfl, rfl⟩, hl⟩
  · rintro ⟨i, shard1, ⟨_, rfl⟩, hl⟩
    exact hl

theorem Iter_keys_nodup {N : Int} {m : ConcurrentMap} (hp : Placed N m) (now : Time) :
    ((ConcurrentMap.Iter m (fun _ => now)).map Tuple.Key).Nodup := by
  rw [Iter_const, List.map_map]
  exact List.Nodup.sublist ((List.filter_sublist _).map Sigma.fst) (entries_keys_nodup hp)

theorem mem_Iter_iff {N : Int} {m : ConcurrentMap} (hp : Placed N m) (now : Time) (key : Key)
    (it : ConcurrentMapItem) :
    (⟨key, it⟩ : Tuple) ∈ ConcurrentMap.Iter m (fun _ => now) ↔
      stored N m key = some it ∧ now < it.Expires := by
  rw [Iter_const]
  constructor
  · intro h
    obtain ⟨⟨key1, it1⟩, he, ht⟩ := List.mem_map.1 h
    simp only [tupleOf, Tuple.mk.injEq] at ht
    obtain ⟨rfl, rfl⟩ := ht
    obtain ⟨hmem, hlive⟩ := List.mem_filter.1 he
    exact ⟨stored_of_mem_entries hp hmem, by simpa [liveAt] using hlive⟩
  · rintro ⟨hs, hlt⟩
    exact List.mem_map.2 ⟨⟨key, it⟩,
      List.mem_filter.2 ⟨mem_entries_of_stored hs, by simpa [liveAt] using hlt⟩, rfl⟩

/-! ## Calls on one key and reads of another -/

theorem GetShard_after_update {N : Int} {m : ConcurrentMap} {key : Key} {i : Nat}
    {shard : ConcurrentMapShared} (hg : ConcurrentMap.GetShard N m key = .ok (i, shard))
    (s : ConcurrentMapShared) (key1 : Key)
    (hl : s.items.lookup key1 = shard.items.lookup key1) :
    (∀ e, ConcurrentMap.GetShard N m key1 = .error e →
        ConcurrentMap.GetShard N (m.set i s) key1 = .error e) ∧
      ∀ j s1, ConcurrentMap.GetShard N m key1 = .ok (j, s1) →
        ∃ s2, ConcurrentMap.GetShard N (m.set i s) key1 = .ok (j, s2) ∧
          s2.items.lookup key1 = s1.items.lookup key1 := by
  have hs : m[i]? = some shard := (GetShard_set hg s).1
  have hlt : i < m.length := (List.getElem?_eq_some.1 hs).1
  unfold ConcurrentMap.GetShard
  cases hidx : shardIndex intBits N key1 with
  | error e =>
    refine ⟨fun e1 h1 => h1, ?_⟩
    intro j s1 h1
    cases h1
  | ok idx =>
    simp only
    by_cases hneg : idx < 0
    · simp only [if_pos hneg]
      exact ⟨fun e1 h1 => h1, fun j s1 h1 => by cases h1⟩
    · simp only [if_neg hneg, List.getElem?_set]
      by_cases hij : i = idx.toNat
      · simp only [if_pos hij, if_pos hlt]
        rw [← hij, hs]
        refine ⟨fun e1 h1 => (by cases h1), ?_⟩
        intro j s1 h1
        simp only [Except.ok.injEq, Prod.mk.injEq] at h1
        obtain ⟨h2, h3⟩ := h1
        subst h2
        subst h3
        exact ⟨s, rfl, hl⟩
      · simp only [if_neg hij]
        cases hm : m[idx.toNat]? with
        | none => exact ⟨fun e1 h1 => h1, fun j s1 h1 => by cases h1⟩
        | some s0 =>
          refine ⟨fun e1 h1 => (by cases h1), ?_⟩
          intro j s1 h1
          simp only [Except.ok.injEq, Prod.mk.injEq] at h1
          obtain ⟨h2, h3⟩ := h1
          subst h2
          subst h3
          exact ⟨s0, rfl, rfl⟩

theorem Get_Has_after_update {N : Int} {m : ConcurrentMap} {key : Key} {i : Nat}
    {shard : ConcurrentMapShared} (hg : ConcurrentMap.GetShard N m key = .ok (i, shard))
    (s : ConcurrentMapShared) (key1 : Key)
    (hl : s.items.lookup key1 = shard.items.lookup key1) (now : Time) :
    ConcurrentMap.Get N (m.set i s) key1 now = ConcurrentMap.Get N m key1 now ∧
      ConcurrentMap.Has N (m.set i s) key1 now = ConcurrentMap.Has N m key1 now := by
  obtain ⟨herr, hok⟩ := GetShard_after_update hg s key1 hl
  cases hg1 : ConcurrentMap.GetShard N m key1 with
  | error e =>
    have h2 := herr e hg1
    simp [ConcurrentMap.Get, ConcurrentMap.Has, hg1, h2]
  | ok r =>
    obtain ⟨j, s1⟩ := r
    obtain ⟨s2, h2, h3⟩ := hok j s1 hg1
    rw [Get_of_GetShard h2, Get_of_GetShard hg1, Has_of_GetShard h2, Has_of_GetShard hg1, h3]
    exact ⟨rfl, rfl⟩

theorem Set_frame {N : Int} {m m1 : ConcurrentMap} {key key1 : Key}
    {value : Option (List UInt8)} {t now : Time}
    (h : ConcurrentMap.Set N m key value t now = .ok m1) (hne : key1 ≠ key) (now1 : Time) :
    ConcurrentMap.Get N m1 key1 now1 = ConcurrentMap.Get N m key1 now1 ∧
      ConcurrentMap.Has N m1 key1 now1 = ConcurrentMap.Has N m key1 now1 := by
  unfold ConcurrentMap.Set at h
  by_cases ht : t > now
  · rw [if_pos ht] at h
    cases hg : ConcurrentMap.GetShard N m key with
    | error e => rw [hg] at h; cases h
    | ok r =>
      obtain ⟨i, shard⟩ := r
      rw [hg] at h
      cases h
      exact Get_Has_after_update hg _ key1 (AList.lookup_insert_ne hne) now1
  · rw [if_neg ht] at h
    cases h
    exact ⟨rfl, rfl⟩

theorem Remove_frame {N : Int} {m m1 : ConcurrentMap} {key key1 : Key}
    (h : ConcurrentMap.Remove N m key = .ok m1) (hne : key1 ≠ key) (now1 : Time) :
    ConcurrentMap.Get N m1 key1 now1 = ConcurrentMap.Get N m key1 now1 ∧
      ConcurrentMap.Has N m1 key1 now1 = ConcurrentMap.Has N m key1 now1 := by
  unfold ConcurrentMap.Remove at h
  cases hg : ConcurrentMap.GetShard N m key with
  | error e => rw [hg] at h; cases h
  | ok r =>
    obtain ⟨i, shard⟩ := r
    rw [hg] at h
    cases h
    exact Get_Has_after_update hg _ key1 (AList.lookup_erase_ne hne) now1

/-! ## Interleavings of two sequences over disjoint keys -/

theorem track_untouched {key : Key} {c : Op × Time} (h : Op.touches key c.1 = false)
    (e : Option ConcurrentMapItem) : track key e c = e := by
  obtain ⟨op, now⟩ := c
  cases op with
  | set key1 value t =>
    have hne : ¬ key1 = key := by simpa [Op.touches] using h
    simp [track, hne]
  | remove key1 =>
    have hne : ¬ key1 = key := by simpa [Op.touches] using h
    simp [track, hne]
  | flush => simp [Op.touches] at h

theorem Interleaving_symm {α : Type} {a b l : List α} (h : Interleaving a b l) :
    Interleaving b a l := by
  induction h with
  | nil => exact Interleaving.nil
  | left x _ ih => exact Interleaving.right x ih
  | right y _ ih => exact Interleaving.left y ih

theorem foldl_track_interleaving {key : Key} {a b l : List (Op × Time)}
    (h : Interleaving a b l) (hb : ∀ y ∈ b, Op.touches key y.1 = false) :
    ∀ e, l.foldl (track key) e = a.foldl (track key) e := by
  induction h with
  | nil => intro e; rfl
  | left x _ ih =>
    intro e
    simp only [List.foldl_cons]
    exact ih hb _
  | right y _ ih =>
    intro e
    simp only [List.foldl_cons]
    rw [track_untouched (hb y (List.mem_cons_self _ _))]
    exact ih (fun y1 hy1 => hb y1 (List.mem_cons_of_mem _ hy1)) e

theorem setKeys_cons (c : Op × Time) (ops : List (Op × Time)) (key : Key) :
    key ∈ setKeys (c :: ops) ↔ (∃ value t, c.1 = Op.set key value t) ∨ key ∈ setKeys ops := by
  obtain ⟨op, now⟩ := c
  cases op with
  | set key1 value t =>
    simp only [setKeys, List.mem_cons, Op.set.injEq]
    constructor
    · rintro (h | h)
      · exact Or.inl ⟨value, t, h.symm, rfl, rfl⟩
      · exact Or.inr h
    · rintro (⟨_, _, h, _, _⟩ | h)
      · exact Or.inl h.symm
      · exact Or.inr h
  | remove key1 => simp [setKeys]
  | flush => simp [setKeys]

theorem mem_setKeys_interleaving {a b l : List (Op × Time)} (h : Interleaving a b l)
    (key : Key) : key ∈ setKeys l ↔ key ∈ setKeys a ∨ key ∈ setKeys b := by
  induction h with
  | nil => simp [setKeys]
  | left x _ ih => rw [setKeys_cons, setKeys_cons, ih, or_assoc]
  | right y _ ih =>
    rw [setKeys_cons, setKeys_cons, ih]
    constructor
    · rintro (h1 | h1 | h1)
      · exact Or.inr (Or.inl h1)
      · exact Or.inl h1
      · exact Or.inr (Or.inr h1)
    · rintro (h1 | h1 | h1)
      · exact Or.inr (Or.inl h1)
      · exact Or.inl h1
      · exact Or.inr (Or.inr h1)

theorem touches_of_mem_setKeys {key : Key} :
    ∀ {ops : List (Op × Time)}, key ∈ setKeys ops → ∃ x ∈ ops, Op.touches key x.1 = true := by
  intro ops
  induction ops with
  | nil => intro h; simp [setKeys] at h
  | cons c ops ih =>
    intro h
    rcases (setKeys_cons c ops key).1 h with ⟨value, t, hc⟩ | h1
    · exact ⟨c, List.mem_cons_self _ _, by rw [hc]; simp [Op.touches]⟩
    · obtain ⟨x, hx, hxt⟩ := ih h1
      exact ⟨x, List.mem_cons_of_mem _ hx, hxt⟩

theorem liveAfter_interleaving {a b l : List (Op × Time)} (h : Interleaving a b l)
    (hd : DisjointKeys a b) (now : Time) {key : Key} (hk : key ∈ setKeys a) :
    liveAfter l now key = liveAfter a now key := by
  obtain ⟨x, hx, hxt⟩ := touches_of_mem_setKeys hk
  unfold liveAfter
  rw [foldl_track_interleaving h (fun y hy => hd key x hx y hy hxt)]

theorem DisjointKeys_symm {a b : List (Op × Time)} (hd : DisjointKeys a b) :
    DisjointKeys b a := by
  intro key y hy x hx hyt
  cases hxt : Op.touches key x.1 with
  | false => rfl
  | true =>
    have := hd key x hx y hy hxt
    rw [this] at hyt
    cases hyt

theorem liveKeyCount_interleaving {a b l : List (Op × Time)} (h : Interleaving a b l)
    (hd : DisjointKeys a b) (now : Time) :
    liveKeyCount l now = liveKeyCount a now + liveKeyCount b now := by
  have nd : ((setKeys l).dedup.filter (liveAfter l now)).Nodup := (List.nodup_dedup _).filter _
  have nda : ((setKeys a).dedup.filter (liveAfter a now)).Nodup := (List.nodup_dedup _).filter _
  have ndb : ((setKeys b).dedup.filter (liveAfter b now)).Nodup := (List.nodup_dedup _).filter _
  have hdisj : List.Disjoint ((setKeys a).dedup.filter (liveAfter a now))
      ((setKeys b).dedup.filter (liveAfter b now)) := by
    rw [List.disjoint_left]
    intro key h1 h2
    have ha := List.mem_dedup.1 (List.mem_filter.1 h1).1
    have hb := List.mem_dedup.1 (List.mem_filter.1 h2).1
    obtain ⟨x, hx, hxt⟩ := touches_of_mem_setKeys ha
    obtain ⟨y, hy, hyt⟩ := touches_of_mem_setKeys hb
    have := hd key x hx y hy hxt
    rw [this] at hyt
    cases hyt
  have hperm : ((setKeys l).dedup.filter (liveAfter l now)).Perm
      ((setKeys a).dedup.filter (liveAfter a now) ++
        (setKeys b).dedup.filter (liveAfter b now)) := by
    rw [List.perm_ext_iff_of_nodup nd (List.nodup_append.2 ⟨nda, ndb, hdisj⟩)]
    intro key
    simp only [List.mem_append, List.mem_filter, List.mem_dedup, mem_setKeys_interleaving h]
    constructor
    · rintro ⟨hk | hk, hlive⟩
      · exact Or.inl ⟨hk, by rw [← liveAfter_interleaving h hd now hk]; exact hlive⟩
      · exact Or.inr ⟨hk, by rw [← liveAfter_interleaving (Interleaving_symm h) (DisjointKeys_symm hd) now hk]; exact hlive⟩
    · rintro (⟨hk, hlive⟩ | ⟨hk, hlive⟩)
      · exact ⟨Or.inl hk, by rw [liveAfter_interleaving h hd now hk]; exact hlive⟩
      · exact ⟨Or.inr hk, by rw [liveAfter_interleaving (Interleaving_symm h) (DisjointKeys_symm hd) now hk]; exact hlive⟩
  unfold liveKeyCount
  rw [hperm.length_eq, List.length_append]

theorem Count_exec {N : Int} (hN : 0 < N) (ops : List (Op × Time)) (now : Time) :
    ∃ m, exec N ops = .ok m ∧ WellFormed N m ∧
      ConcurrentMap.Count N m (fun _ => now) = .ok (liveKeyCount ops now) := by
  obtain ⟨m, he, hwf, hst⟩ := exec_track hN ops
  refine ⟨m, he, hwf, ?_⟩
  rw [Count_const hwf, countP_eq_liveKeyCount (exec_placed hN ops he) ops now hst]

/-! ## Set and Get over slice references -/

theorem GetShardRef_eq {N : Int} (hN : 0 < N) {m : List SharedRef} (hlen : m.length = N.toNat)
    (key : Key) :
    ∃ shard, m[slot N key]? = some shard ∧ GetShardRef N m key = .ok (slot N key, shard) := by
  have hlt : slot N key < m.length := by rw [hlen]; exact slot_lt hN key
  refine ⟨m[slot N key], List.getElem?_eq_getElem hlt, ?_⟩
  unfold GetShardRef
  rw [shardIndex_eq hN]
  simp [List.getElem?_eq_getElem hlt]

theorem sliceBytes_length {heap : Heap} {v : Option SliceRef}
    (hv : ∀ s, v = some s → s.off + s.len ≤ ((heap[s.addr]?).getD []).length) :
    (sliceBytes heap v).length = sliceLen v := by
  cases v with
  | none => rfl
  | some s =>
    have := hv s rfl
    simp only [sliceBytes, sliceLen, List.length_take, List.length_drop]
    omega

theorem GetRef_after_SetRef {N : Int} (hN : 0 < N) {st : Store}
    (hlen : st.shards.length = N.toNat) (key : Key) (value : Option SliceRef) (t now0 : Time)
    (h0 : now0 < t) :
    ∃ st1, SetRef N st key value t now0 = .ok st1 ∧
      st1.heap = st.heap ++
        [(sliceBytes st.heap value ++ List.replicate (sliceLen value) 0).take (sliceLen value)] ∧
      ∀ heap2 now1, now1 < t →
        GetRef N { st1 with heap := heap2 } key now1
          = .ok (some ⟨st.heap.length, 0, sliceLen value⟩, true) := by
  obtain ⟨shard, hs, hg⟩ := GetShardRef_eq hN hlen key
  refine ⟨Store.mk
    (st.heap ++
      [(sliceBytes st.heap value ++ List.replicate (sliceLen value) 0).take (sliceLen value)])
    (st.shards.set (slot N key)
      ⟨shard.items.insert key ⟨t, some ⟨st.heap.length, 0, sliceLen value⟩⟩⟩), ?_, rfl, ?_⟩
  · unfold SetRef
    rw [if_pos (by exact h0), hg]
  · intro heap2 now1 h1
    have hlt : slot N key < st.shards.length := (List.getElem?_eq_some.1 hs).1
    have hlen1 : (st.shards.set (slot N key)
        ⟨shard.items.insert key ⟨t, some ⟨st.heap.length, 0, sliceLen value⟩⟩⟩).length
        = N.toNat := by
      rw [List.length_set]
      exact hlen
    obtain ⟨shard1, hs1, hg1⟩ := GetShardRef_eq hN hlen1 key
    rw [List.getElem?_set_self hlt] at hs1
    cases hs1
    unfold GetRef
    simp only [hg1, AList.lookup_insert]
    rw [if_neg (show ¬ t < now1 from not_lt.2 h1.le)]

/-! ## The claims -/

open ConcurrentMap

/-- C1: on a well-formed map (`SHARD_COUNT = N > 0`, `N` shards), after `Set(k, v, t)` executed
at `now0 < t`, followed by any calls that are neither a `Set` nor a `Remove` of `k` nor a
`Flush`, `Get(k)` at an instant `now1 < t` with `now0 ≤ now1` returns the bytes of `v` with
`true`, and `Has(k)` returns `true`; all the calls return. -/
theorem C1_set_then_read (N : Int) (m : ConcurrentMap) (hwf : WellFormed N m) (k : Key)
    (v : Option (List UInt8)) (t now0 now1 : Time) (_h01 : now0 ≤ now1) (h0 : now0 < t)
    (h1 : now1 < t) (ops : List (Op × Time)) (hops : ∀ c ∈ ops, Op.touches k c.1 = false) :
    ∃ m1 m2, Set N m k v t now0 = .ok m1 ∧ run N m1 ops = .ok m2 ∧
      Get N m2 k now1 = .ok (some (v.getD []), true) ∧ Has N m2 k now1 = .ok true := by
  obtain ⟨m1, hs, hwf1, hst, _⟩ := Set_eq hwf k v t now0 h0
  obtain ⟨m2, hr, hwf2, htr⟩ := run_track ops hwf1
  have hst2 : stored N m2 k = some ⟨t, some (v.getD [])⟩ := by
    rw [htr k, foldl_track_untouched k ops hops, hst]
  refine ⟨m1, m2, hs, hr, ?_, ?_⟩
  · rw [Get_eq hwf2, hst2]
    simp only [getResult]
    rw [if_neg (show ¬ t < now1 from not_lt.2 h1.le)]
  · rw [Has_eq hwf2, hst2]
    simp only [hasResult]
    congr 1
    simpa using h1.le

/-- Witness of C1: `elephant` set for one minute on a fresh map of 32 shards, then a `Set`
and a `Remove` of other keys, then read back just before the minute is over. -/
theorem C1_set_then_read_witness :
    ∃ m1 m2,
      Set 32 (List.replicate 32 ⟨∅⟩) (str "elephant") (some (str "elephant")) 60 0 = .ok m1 ∧
      run 32 m1 [(.set (str "monkey") (some (str "monkey")) 61, 1),
        (.remove (str "noone"), 2)] = .ok m2 ∧
      Get 32 m2 (str "elephant") 59 = .ok (some (str "elephant"), true) ∧
      Has 32 m2 (str "elephant") 59 = .ok true :=
  C1_set_then_read 32 (List.replicate 32 ⟨∅⟩) ⟨by decide, by decide⟩ (str "elephant")
    (some (str "elephant")) 60 0 59 (by decide) (by decide) (by decide)
    [(.set (str "monkey") (some (str "monkey")) 61, 1), (.remove (str "noone"), 2)]
    (by decide)

/-- C2, the code at the boundary: an entry whose expiry equals the instant of the read is
still returned by `Get` (with `true`) and reported by `Has`, on a fresh map of 32 shards
after `Set("k", [1], 10)` executed at instant `0` and read at instant `10`. -/
theorem C2_read_at_expiry_instant :
    (exec 32 [(.set (str "k") (some [1]) 10, 0)]).bind (fun m => Get 32 m (str "k") 10)
        = .ok (some [1], true) ∧
      (exec 32 [(.set (str "k") (some [1]) 10, 0)]).bind (fun m => Has 32 m (str "k") 10)
        = .ok true := by
  decide

/-- An entry whose expiry is strictly before the instant of the read is invisible to `Get`
and `Has`, whatever the map. -/
theorem Get_Has_expired (N : Int) (m : ConcurrentMap) (k : Key) (now : Time) (i : Nat)
    (shard : ConcurrentMapShared) (it : ConcurrentMapItem)
    (hg : GetShard N m k = .ok (i, shard)) (hl : shard.items.lookup k = some it)
    (hexp : it.Expires < now) :
    Get N m k now = .ok (none, false) ∧ Has N m k now = .ok false := by
  constructor
  · simp [Get, hg, lookup2, hl, hexp]
  · simp [Has, hg, lookup2, hl, hexp]

/-- C3: a `Set` whose expiry is not strictly after the instant of the call returns the map
it was given, whatever the map: no table changes, so `Has` of every key at every instant and
`Count` under every clock are what they were. -/
theorem C3_set_nonfuture_noop (N : Int) (m : ConcurrentMap) (k : Key)
    (v : Option (List UInt8)) (t now : Time) (h : t ≤ now) :
    Set N m k v t now = .ok m ∧
      ∀ m1, Set N m k v t now = .ok m1 →
        (∀ i : Nat, m1[i]? = m[i]?) ∧ (∀ k1 now1, Has N m1 k1 now1 = Has N m k1 now1) ∧
          ∀ clock, Count N m1 clock = Count N m clock := by
  have hs : Set N m k v t now = .ok m := by
    unfold ConcurrentMap.Set
    rw [if_neg (by simpa using h)]
  refine ⟨hs, ?_⟩
  intro m1 h1
  rw [hs] at h1
  cases h1
  exact ⟨fun _ => rfl, fun _ _ => rfl, fun _ => rfl⟩

/-- Witness of C3: on a fresh map of 32 shards, a `Set` of `expired` with expiry equal to
the instant of the call changes nothing. -/
theorem C3_set_nonfuture_noop_witness :
    Set 32 (List.replicate 32 ⟨∅⟩) (str "expired") (some (str "expired")) 7 7
        = .ok (List.replicate 32 ⟨∅⟩) ∧
      ∀ m1, Set 32 (List.replicate 32 ⟨∅⟩) (str "expired") (some (str "expired")) 7 7 = .ok m1 →
        (∀ i : Nat, m1[i]? = (List.replicate 32 (⟨∅⟩ : ConcurrentMapShared))[i]?) ∧
          (∀ k1 now1, Has 32 m1 k1 now1 = Has 32 (List.replicate 32 ⟨∅⟩) k1 now1) ∧
          ∀ clock, Count 32 m1 clock = Count 32 (List.replicate 32 ⟨∅⟩) clock :=
  C3_set_nonfuture_noop 32 (List.replicate 32 ⟨∅⟩) (str "expired") (some (str "expired")) 7 7
    (by decide)

/-- C5: on a well-formed map, `Remove(k)` returns, and afterwards `Get(k)` is `(nil, false)`
and `Has(k)` is `false` at every instant, whatever was stored under `k`; when no table holds
an entry for `k` the map is unchanged. -/
theorem C5_remove_makes_absent (N : Int) (m : ConcurrentMap) (hwf : WellFormed N m) (k : Key) :
    ∃ m1, Remove N m k = .ok m1 ∧
      (∀ now, Get N m1 k now = .ok (none, false) ∧ Has N m1 k now = .ok false) ∧
      ((∀ shard ∈ m, shard.items.lookup k = none) → m1 = m) := by
  obtain ⟨m1, hr, hwf1, hst, _, hsame⟩ := Remove_eq hwf k
  refine ⟨m1, hr, ?_, ?_⟩
  · intro now
    rw [Get_eq hwf1, Has_eq hwf1, hst]
    exact ⟨rfl, rfl⟩
  · intro hno
    apply hsame
    unfold stored
    cases hs : m[slot N k]? with
    | none => rfl
    | some shard => exact hno shard (List.getElem?_mem hs)

/-- Witness of C5: `monkey`, resident in its slot 18 of a map of 32 shards, is removed. -/
theorem C5_remove_makes_absent_witness :
    ∃ m1, Remove 32 ((List.replicate 32 (⟨∅⟩ : ConcurrentMapShared)).set 18
        ⟨(∅ : Items).insert (str "monkey") ⟨60, some (str "monkey")⟩⟩) (str "monkey") = .ok m1 ∧
      (∀ now, Get 32 m1 (str "monkey") now = .ok (none, false) ∧
        Has 32 m1 (str "monkey") now = .ok false) ∧
      ((∀ shard ∈ (List.replicate 32 (⟨∅⟩ : ConcurrentMapShared)).set 18
          ⟨(∅ : Items).insert (str "monkey") ⟨60, some (str "monkey")⟩⟩,
          shard.items.lookup (str "monkey") = none) → m1 =
        (List.replicate 32 (⟨∅⟩ : ConcurrentMapShared)).set 18
          ⟨(∅ : Items).insert (str "monkey") ⟨60, some (str "monkey")⟩⟩) :=
  C5_remove_makes_absent 32 _ ⟨by decide, by decide⟩ (str "monkey")

/-- C4: for every sequence of `Set`, `Remove` and `Flush` calls applied to `New()` with
`SHARD_COUNT = N > 0`, the calls return, and `Count()` at any instant `now` is the number of
distinct keys whose most recent effective call is an accepted `Set`, not followed by a
`Remove` of the key or a `Flush`, with expiry strictly after `now`. -/
theorem C4_count_is_live_keys (N : Int) (hN : 0 < N) (ops : List (Op × Time)) (now : Time) :
    ∃ m, exec N ops = .ok m ∧ Count N m (fun _ => now) = .ok (liveKeyCount ops now) := by
  obtain ⟨m, he, hwf, hst⟩ := exec_track hN ops
  refine ⟨m, he, ?_⟩
  rw [Count_const hwf, countP_eq_liveKeyCount (exec_placed hN ops he) ops now hst]

/-- Witness of C4: three keys set for a minute and one set with its expiry equal to the
instant of the call give a count of 3, on 32 shards. -/
theorem C4_count_is_live_keys_witness :
    (0 : Int) < 32 ∧
      ∃ m, exec 32 [(.set (str "elephant") (some (str "elephant")) 60, 0),
          (.set (str "monkey") (some (str "monkey")) 61, 1),
          (.set (str "verylargeanimal") (some (str "0123")) 62, 2),
          (.set (str "expired") (some (str "expired")) 3, 3)] = .ok m ∧
        Count 32 m (fun _ => 4) = .ok 3 :=
  ⟨by decide, C4_count_is_live_keys 32 (by decide)
    [(.set (str "elephant") (some (str "elephant")) 60, 0),
      (.set (str "monkey") (some (str "monkey")) 61, 1),
      (.set (str "verylargeanimal") (some (str "0123")) 62, 2),
      (.set (str "expired") (some (str "expired")) 3, 3)] 4⟩

set_option maxRecDepth 100000 in
/-- The scenario of `TestCount`, evaluated on the code: after 100 distinct keys are set for
a minute on 32 shards, `Count()` is 100, which is also the number of live keys told from the
calls. -/
theorem Count_hundredSets :
    (exec 32 hundredSets).bind (fun m => Count 32 m (fun _ => 100)) = .ok 100 ∧
      liveKeyCount hundredSets 100 = 100 := by
  decide

/-- C6: for expiries `t1`, `t2` strictly after the instants of their calls, `Set(k, v1, t1)`
followed by `Set(k, v2, t2)` yields the same result as `Set(k, v2, t2)` alone, whatever the
map; on a well-formed map that result is a map in which the entry stored under `k` has the
bytes of `v2` and expiry `t2`, `Get(k)` at every `now < t2` returns the bytes of `v2` with
`true`, and `Count()` at every `now < t2` is one more than after a `Remove(k)`. -/
theorem C6_overwrite_last_write_wins (N : Int) (m : ConcurrentMap) (k : Key)
    (v1 v2 : Option (List UInt8)) (t1 t2 now1 now2 : Time) (h1 : now1 < t1) (h2 : now2 < t2) :
    (Set N m k v1 t1 now1).bind (fun m1 => Set N m1 k v2 t2 now2) = Set N m k v2 t2 now2 ∧
      (WellFormed N m →
        ∃ m2 i shard, Set N m k v2 t2 now2 = .ok m2 ∧
          GetShard N m2 k = .ok (i, shard) ∧
          shard.items.lookup k = some ⟨t2, some (v2.getD [])⟩ ∧
          ∀ now, now < t2 →
            Get N m2 k now = .ok (some (v2.getD []), true) ∧
            ∃ m3 c, Remove N m2 k = .ok m3 ∧ Count N m3 (fun _ => now) = .ok c ∧
              Count N m2 (fun _ => now) = .ok (c + 1)) := by
  refine ⟨Set_Set N m k v1 v2 t1 t2 now1 now2 h1 h2, ?_⟩
  intro hwf
  obtain ⟨shard, hs, hg⟩ := GetShard_eq hwf k
  have hset : Set N m k v2 t2 now2
      = .ok (m.set (slot N k) ⟨shard.items.insert k ⟨t2, some (v2.getD [])⟩⟩) := by
    unfold ConcurrentMap.Set
    rw [if_pos (by exact h2), hg]
  have hwf2 := WellFormed_set hwf (slot N k) ⟨shard.items.insert k ⟨t2, some (v2.getD [])⟩⟩
  have hg2 := (GetShard_set hg ⟨shard.items.insert k ⟨t2, some (v2.getD [])⟩⟩).2
  refine ⟨_, slot N k, _, hset, hg2, AList.lookup_insert _, ?_⟩
  intro now hnow
  constructor
  · rw [Get_eq hwf2, stored_set_same hwf]
    simp only [AList.lookup_insert, getResult]
    rw [if_neg (show ¬ t2 < now from not_lt.2 hnow.le)]
  · have hrem : Remove N (m.set (slot N k) ⟨shard.items.insert k ⟨t2, some (v2.getD [])⟩⟩) k
        = .ok ((m.set (slot N k) ⟨shard.items.insert k ⟨t2, some (v2.getD [])⟩⟩).set (slot N k)
            ⟨(shard.items.insert k ⟨t2, some (v2.getD [])⟩).erase k⟩) := by
      unfold ConcurrentMap.Remove
      rw [hg2]
    refine ⟨_, _, hrem, Count_const (WellFormed_set hwf2 _ _) now, ?_⟩
    rw [Count_const hwf2]
    congr 1
    obtain ⟨pre, post, e1, e2⟩ := entries_set
      ⟨(shard.items.insert k ⟨t2, some (v2.getD [])⟩).erase k⟩ _ _ _
      (GetShard_set hg ⟨shard.items.insert k ⟨t2, some (v2.getD [])⟩⟩ |>.2 |> fun h =>
        (GetShard_set h ⟨shard.items.insert k ⟨t2, some (v2.getD [])⟩⟩).1)
    rw [e1, e2]
    simp only [List.countP_append]
    rw [countP_insert_entries now shard.items k ⟨t2, some (v2.getD [])⟩ hnow]
    omega

/-- Witness of C6: `k` written twice on a fresh map of 32 shards, first with value `v1` and
expiry 50, then with value `v2` and expiry 60. -/
theorem C6_overwrite_last_write_wins_witness :
    (Set 32 (List.replicate 32 ⟨∅⟩) (str "k") (some (str "v1")) 50 0).bind
        (fun m1 => Set 32 m1 (str "k") (some (str "v2")) 60 1)
      = Set 32 (List.replicate 32 ⟨∅⟩) (str "k") (some (str "v2")) 60 1 ∧
      ∃ m2 i shard, Set 32 (List.replicate 32 ⟨∅⟩) (str "k") (some (str "v2")) 60 1 = .ok m2 ∧
        GetShard 32 m2 (str "k") = .ok (i, shard) ∧
        shard.items.lookup (str "k") = some ⟨60, some (str "v2")⟩ ∧
        ∀ now, now < 60 →
          Get 32 m2 (str "k") now = .ok (some (str "v2"), true) ∧
          ∃ m3 c, Remove 32 m2 (str "k") = .ok m3 ∧ Count 32 m3 (fun _ => now) = .ok c ∧
            Count 32 m2 (fun _ => now) = .ok (c + 1) :=
  have h := C6_overwrite_last_write_wins 32 (List.replicate 32 ⟨∅⟩) (str "k") (some (str "v1"))
    (some (str "v2")) 50 60 0 1 (by decide) (by decide)
  ⟨h.1, h.2 ⟨by decide, by decide⟩⟩

/-- C7: for every state reached from `New()` with `SHARD_COUNT = N > 0` by `Set`, `Remove`
and `Flush` calls, `Flush()` returns, and afterwards `Count()` is 0 and `IsEmpty()` is true
under every clock, and `Get(k)` is `(nil, false)` for every key at every instant. -/
theorem C7_flush_empties (N : Int) (hN : 0 < N) (ops : List (Op × Time)) :
    ∃ m m1, exec N ops = .ok m ∧ Flush N m = .ok m1 ∧
      (∀ clock, Count N m1 clock = .ok 0 ∧ IsEmpty N m1 clock = .ok true) ∧
      ∀ k now, Get N m1 k now = .ok (none, false) := by
  obtain ⟨m, he, hwf, _⟩ := exec_track hN ops
  refine ⟨m, _, he, Flush_eq hwf, ?_, ?_⟩
  · intro clock
    have hc := Count_replicate N clock
    refine ⟨hc, ?_⟩
    unfold ConcurrentMap.IsEmpty
    rw [hc]
    rfl
  · intro k now
    rw [Get_eq (WellFormed_replicate hN), stored_replicate]
    rfl

/-- Witness of C7: `monkey` set for a minute on 32 shards, then flushed. -/
theorem C7_flush_empties_witness :
    (0 : Int) < 32 ∧
      ∃ m m1, exec 32 [(.set (str "monkey") (some (str "monkey")) 60, 0)] = .ok m ∧
        Flush 32 m = .ok m1 ∧
        (∀ clock, Count 32 m1 clock = .ok 0 ∧ IsEmpty 32 m1 clock = .ok true) ∧
        ∀ k now, Get 32 m1 k now = .ok (none, false) :=
  ⟨by decide, C7_flush_empties 32 (by decide) [(.set (str "monkey") (some (str "monkey")) 60, 0)]⟩

/-- C8: for `New()` with `SHARD_COUNT = N > 0` and every sequence of `Set`, `Remove` and
`Flush` calls on it, the calls return, and a key that is the key of no `Set` in the sequence
has `Get(k) = (nil, false)` and `Has(k) = false` at every instant; `New()` itself returns a
map whose `Count()` is 0. -/
theorem C8_never_set_absent (N : Int) (hN : 0 < N) (ops : List (Op × Time)) (k : Key)
    (hk : ∀ c ∈ ops, ∀ v t, c.1 ≠ Op.set k v t) :
    (∃ m, exec N ops = .ok m ∧
      ∀ now, Get N m k now = .ok (none, false) ∧ Has N m k now = .ok false) ∧
      ∃ m0, New N = .ok m0 ∧ ∀ clock, Count N m0 clock = .ok 0 := by
  constructor
  · obtain ⟨m, he, hwf, hst⟩ := exec_track hN ops
    refine ⟨m, he, ?_⟩
    intro now
    rw [Get_eq hwf, Has_eq hwf, hst k, foldl_track_never_set k ops hk]
    exact ⟨rfl, rfl⟩
  · exact ⟨_, New_eq hN, fun clock => Count_replicate N clock⟩

/-- Witness of C8: `Money` is never set while `elephant` is set and removed and the map is
flushed, on 32 shards. -/
theorem C8_never_set_absent_witness :
    (∃ m, exec 32 [(.set (str "elephant") (some (str "elephant")) 60, 0),
        (.remove (str "elephant"), 1), (.flush, 2)] = .ok m ∧
      ∀ now, Get 32 m (str "Money") now = .ok (none, false) ∧
        Has 32 m (str "Money") now = .ok false) ∧
      ∃ m0, New 32 = .ok m0 ∧ ∀ clock, Count 32 m0 clock = .ok 0 :=
  C8_never_set_absent 32 (by decide)
    [(.set (str "elephant") (some (str "elephant")) 60, 0), (.remove (str "elephant"), 1),
      (.flush, 2)] (str "Money") (by
      intro c hc v t h
      simp only [List.mem_cons, List.mem_singleton, List.not_mem_nil, or_false] at hc
      rcases hc with rfl | rfl | rfl
      · simp only [Op.set.injEq] at h
        exact absurd h.1 (by decide)
      · cases h
      · cases h)

/-- C9: for every map, key and instant, `Has(k)` is the found flag of `Get(k)` at the same
instant (both panic alike when routing fails), a `Get` whose flag is `false` returns a nil
value, and on a well-formed map both return. -/
theorem C9_has_agrees_with_get (N : Int) (m : ConcurrentMap) (k : Key) (now : Time) :
    Has N m k now = (Get N m k now).map Prod.snd ∧
      (∀ v, Get N m k now = .ok (v, false) → v = none) ∧
      (WellFormed N m → ∃ v b, Get N m k now = .ok (v, b) ∧ Has N m k now = .ok b) := by
  refine ⟨?_, ?_, ?_⟩
  · unfold ConcurrentMap.Has ConcurrentMap.Get
    cases hg : GetShard N m k with
    | error e => rfl
    | ok r =>
      obtain ⟨i, shard⟩ := r
      obtain hl | ⟨it, hl⟩ := Option.eq_none_or_eq_some (shard.items.lookup k)
      · by_cases hlt : ConcurrentMapItem.zero.Expires < now <;>
          simp [lookup2, hl, hlt, Except.map]
      · by_cases hlt : it.Expires < now <;> simp [lookup2, hl, hlt, Except.map]
  · intro v
    unfold ConcurrentMap.Get
    cases hg : GetShard N m k with
    | error e => intro h; cases h
    | ok r =>
      obtain ⟨i, shard⟩ := r
      obtain hl | ⟨it, hl⟩ := Option.eq_none_or_eq_some (shard.items.lookup k)
      · by_cases hlt : ConcurrentMapItem.zero.Expires < now
        · simp only [lookup2, hl, if_pos hlt]
          intro h
          cases h
          rfl
        · simp only [lookup2, hl, if_neg hlt]
          intro h
          cases h
          rfl
      · by_cases hlt : it.Expires < now
        · simp only [lookup2, hl, if_pos hlt]
          intro h
          cases h
          rfl
        · simp only [lookup2, hl, if_neg hlt]
          intro h
          cases h
  · intro hwf
    exact ⟨_, _, Get_eq hwf k now, by
      rw [Has_eq hwf]
      cases hs : stored N m k with
      | none => rfl
      | some it => by_cases hlt : it.Expires < now <;> simp [getResult, hasResult, hlt]⟩

/-- Witness of C9: a key that is absent from a fresh map of 32 shards, so that `Get` inspects
the zero-valued entry, read at an instant before the zero time. -/
theorem C9_has_agrees_with_get_witness :
    Has 32 (List.replicate 32 ⟨∅⟩) (str "Money") (-5)
        = (Get 32 (List.replicate 32 ⟨∅⟩) (str "Money") (-5)).map Prod.snd ∧
      (∀ v, Get 32 (List.replicate 32 ⟨∅⟩) (str "Money") (-5) = .ok (v, false) → v = none) ∧
      ∃ v b, Get 32 (List.replicate 32 ⟨∅⟩) (str "Money") (-5) = .ok (v, b) ∧
        Has 32 (List.replicate 32 ⟨∅⟩) (str "Money") (-5) = .ok b :=
  have h := C9_has_agrees_with_get 32 (List.replicate 32 ⟨∅⟩) (str "Money") (-5)
  ⟨h.1, h.2.1, h.2.2 ⟨by decide, by decide⟩⟩

/-- C10, the code at the boundary: on a fresh map of 32 shards after `Set("k", [1], 10)`
executed at instant `0`, at the single instant `10` the key `k` is reported by `Has` and
returned by `Get`, while `Iter` emits nothing and `Count` is 0. -/
theorem C10_has_disagrees_with_iter_and_count :
    (exec 32 [(.set (str "k") (some [1]) 10, 0)]).bind (fun m => Has 32 m (str "k") 10)
        = .ok true ∧
      (exec 32 [(.set (str "k") (some [1]) 10, 0)]).bind (fun m => Get 32 m (str "k") 10)
        = .ok (some [1], true) ∧
      (exec 32 [(.set (str "k") (some [1]) 10, 0)]).map (fun m => Iter m (fun _ => 10))
        = .ok [] ∧
      (exec 32 [(.set (str "k") (some [1]) 10, 0)]).bind (fun m => Count 32 m (fun _ => 10))
        = .ok 0 := by
  decide

/-- C13: for every map, key and instants `now ≤ now1`, if `Get(k)` at `now` reports not
found, or `Has(k)` at `now` is false, then `Get(k)` at `now1` is `(nil, false)` and `Has(k)`
at `now1` is false. -/
theorem C13_expiry_is_permanent (N : Int) (m : ConcurrentMap) (k : Key) (now now1 : Time)
    (h : now ≤ now1) :
    (∀ v, Get N m k now = .ok (v, false) →
        Get N m k now1 = .ok (none, false) ∧ Has N m k now1 = .ok false) ∧
      (Has N m k now = .ok false →
        Get N m k now1 = .ok (none, false) ∧ Has N m k now1 = .ok false) := by
  cases hg : GetShard N m k with
  | error e =>
    constructor
    · intro v hv
      simp [ConcurrentMap.Get, hg] at hv
    · intro hv
      simp [ConcurrentMap.Has, hg] at hv
  | ok r =>
    obtain ⟨i, shard⟩ := r
    rw [Get_of_GetShard hg, Get_of_GetShard hg, Has_of_GetShard hg, Has_of_GetShard hg]
    constructor
    · intro v hv
      have hf : hasResult (shard.items.lookup k) now = false := by
        rw [← getResult_snd]
        simp only [Except.ok.injEq] at hv
        rw [hv]
      obtain ⟨h1, h2⟩ := getResult_of_not_found h hf
      rw [h1, h2]
      exact ⟨rfl, rfl⟩
    · intro hv
      simp only [Except.ok.injEq] at hv
      obtain ⟨h1, h2⟩ := getResult_of_not_found h hv
      rw [h1, h2]
      exact ⟨rfl, rfl⟩

/-- Witness of C13: `k`, set at instant 0 with expiry 10 on 32 shards, is not found at
instant 11 and stays so at instant 12. -/
theorem C13_expiry_is_permanent_witness :
    (∀ v, Get 32 ((List.replicate 32 (⟨∅⟩ : ConcurrentMapShared)).set 20
          ⟨(∅ : Items).insert (str "k") ⟨10, some [1]⟩⟩) (str "k") 11 = .ok (v, false) →
        Get 32 ((List.replicate 32 (⟨∅⟩ : ConcurrentMapShared)).set 20
          ⟨(∅ : Items).insert (str "k") ⟨10, some [1]⟩⟩) (str "k") 12 = .ok (none, false) ∧
        Has 32 ((List.replicate 32 (⟨∅⟩ : ConcurrentMapShared)).set 20
          ⟨(∅ : Items).insert (str "k") ⟨10, some [1]⟩⟩) (str "k") 12 = .ok false) ∧
      Get 32 ((List.replicate 32 (⟨∅⟩ : ConcurrentMapShared)).set 20
          ⟨(∅ : Items).insert (str "k") ⟨10, some [1]⟩⟩) (str "k") 12 = .ok (none, false) ∧
      Has 32 ((List.replicate 32 (⟨∅⟩ : ConcurrentMapShared)).set 20
          ⟨(∅ : Items).insert (str "k") ⟨10, some [1]⟩⟩) (str "k") 12 = .ok false :=
  have h := C13_expiry_is_permanent 32 ((List.replicate 32 (⟨∅⟩ : ConcurrentMapShared)).set 20
    ⟨(∅ : Items).insert (str "k") ⟨10, some [1]⟩⟩) (str "k") 11 12 (by decide)
  ⟨h.1, h.2 (by decide)⟩

/-- C14: `IsEmpty()` is `Count() == 0` for every map and clock (both panic alike); on a
well-formed map at a single instant `now` it is true exactly when no shard holds an entry
whose expiry is strictly after `now`; `New().IsEmpty()` is true; and after an accepted
`Set(k, v, t)`, `IsEmpty()` at an instant before `t` is false. -/
theorem C14_isEmpty_iff_no_live_entry (N : Int) (m : ConcurrentMap) (hwf : WellFormed N m)
    (now : Time) :
    (∀ clock, IsEmpty N m clock = (Count N m clock).map (fun c => c == 0)) ∧
      (IsEmpty N m (fun _ => now) = .ok true ↔
        ∀ shard ∈ m, ∀ e ∈ shard.items.entries, ¬ now < e.2.Expires) ∧
      (∃ m0, New N = .ok m0 ∧ ∀ clock, IsEmpty N m0 clock = .ok true) ∧
      ∀ k v t now0, now0 < t → now < t →
        ∃ m1, Set N m k v t now0 = .ok m1 ∧ IsEmpty N m1 (fun _ => now) = .ok false := by
  refine ⟨?_, ?_, ?_, ?_⟩
  · intro clock
    unfold ConcurrentMap.IsEmpty
    cases Count N m clock <;> rfl
  · unfold ConcurrentMap.IsEmpty
    rw [Count_const hwf]
    simp only [Except.ok.injEq, beq_iff_eq, List.countP_eq_zero]
    constructor
    · intro h shard hs e he
      have := h e (List.mem_flatMap.2 ⟨shard, hs, he⟩)
      simpa [liveAt] using this
    · intro h e he
      obtain ⟨shard, hs, he1⟩ := List.mem_flatMap.1 he
      simpa [liveAt] using h shard hs e he1
  · refine ⟨_, New_eq hwf.1, ?_⟩
    intro clock
    unfold ConcurrentMap.IsEmpty
    rw [Count_replicate]
    rfl
  · intro k v t now0 h0 h1
    obtain ⟨m1, hs, hwf1, hst, _⟩ := Set_eq hwf k v t now0 h0
    refine ⟨m1, hs, ?_⟩
    unfold ConcurrentMap.IsEmpty
    rw [Count_const hwf1]
    have hpos : 0 < (entries m1).countP (liveAt now) :=
      List.countP_pos_iff.2 ⟨_, mem_entries_of_stored hst, by simpa [liveAt] using h1⟩
    simp only [Except.ok.injEq, beq_eq_false_iff_ne, ne_eq]
    omega

/-- Witness of C14: a fresh map of 32 shards, observed at instant 5, and `elephant` set on
it for a minute. -/
theorem C14_isEmpty_iff_no_live_entry_witness :
    (∀ clock, IsEmpty 32 (List.replicate 32 ⟨∅⟩) clock
        = (Count 32 (List.replicate 32 ⟨∅⟩) clock).map (fun c => c == 0)) ∧
      (IsEmpty 32 (List.replicate 32 ⟨∅⟩) (fun _ => 5) = .ok true ↔
        ∀ shard ∈ List.replicate 32 (⟨∅⟩ : ConcurrentMapShared),
          ∀ e ∈ shard.items.entries, ¬ (5 : Time) < e.2.Expires) ∧
      (∃ m0, New 32 = .ok m0 ∧ ∀ clock, IsEmpty 32 m0 clock = .ok true) ∧
      ∀ k v t now0, now0 < t → (5 : Time) < t →
        ∃ m1, Set 32 (List.replicate 32 ⟨∅⟩) k v t now0 = .ok m1 ∧
          IsEmpty 32 m1 (fun _ => 5) = .ok false :=
  C14_isEmpty_iff_no_live_entry 32 (List.replicate 32 ⟨∅⟩) ⟨by decide, by decide⟩ 5

/-- C15, the code at `SHARD_COUNT == 0`: `New()` does not fail, it returns a map with no
shards, and a later `GetShard`, `Get`, `Has`, `Remove` or accepted `Set` on it panics with a
division by zero. -/
theorem C15_New_zero_returns_a_map :
    New 0 = .ok [] ∧
      GetShard 0 [] (str "k") = .error .divideByZero ∧
      Get 0 [] (str "k") 5 = .error .divideByZero ∧
      Has 0 [] (str "k") 5 = .error .divideByZero ∧
      Remove 0 [] (str "k") = .error .divideByZero ∧
      Set 0 [] (str "k") (some [1]) 10 5 = .error .divideByZero := by
  decide

/-- C15 as amended: for `SHARD_COUNT < 0`, `New()` fails at once (the `make` panics); for
`SHARD_COUNT == 0`, `New()` returns a map with no shards, and on it every `GetShard`, `Get`,
`Has` and `Remove`, and every `Set` whose expiry is after the instant of the call, panics
with a division by zero. -/
theorem C15_nonpositive_shard_count (N : Int) (hN : N ≤ 0) :
    (N < 0 ∧ New N = .error .makesliceLenOutOfRange) ∨
      (N = 0 ∧ New N = .ok [] ∧
        ∀ (k : Key) (v : Option (List UInt8)) (t now : Time),
          GetShard N [] k = .error .divideByZero ∧
          Get N [] k now = .error .divideByZero ∧
          Has N [] k now = .error .divideByZero ∧
          Remove N [] k = .error .divideByZero ∧
          (now < t → Set N [] k v t now = .error .divideByZero)) := by
  rcases lt_or_eq_of_le hN with h | h
  · left
    refine ⟨h, ?_⟩
    unfold ConcurrentMap.New
    rw [if_pos h]
  · right
    subst h
    refine ⟨rfl, rfl, ?_⟩
    intro k v t now
    have hg : GetShard 0 [] k = .error .divideByZero := by
      simp [ConcurrentMap.GetShard, shardIndex]
    refine ⟨hg, ?_, ?_, ?_, ?_⟩
    · simp [ConcurrentMap.Get, hg]
    · simp [ConcurrentMap.Has, hg]
    · simp [ConcurrentMap.Remove, hg]
    · intro ht
      simp [ConcurrentMap.Set, hg, ht]

/-- Witness of C15 as amended, at `SHARD_COUNT == 0`. -/
theorem C15_nonpositive_shard_count_witness :
    ((0 : Int) < 0 ∧ New 0 = .error .makesliceLenOutOfRange) ∨
      ((0 : Int) = 0 ∧ New 0 = .ok [] ∧
        ∀ (k : Key) (v : Option (List UInt8)) (t now : Time),
          GetShard 0 [] k = .error .divideByZero ∧
          Get 0 [] k now = .error .divideByZero ∧
          Has 0 [] k now = .error .divideByZero ∧
          Remove 0 [] k = .error .divideByZero ∧
          (now < t → Set 0 [] k v t now = .error .divideByZero)) :=
  C15_nonpositive_shard_count 0 (by decide)

/-- C16: on every state reached from `New()` with `SHARD_COUNT = N > 0`, for every key,
the index expression of `GetShard` is `fnv32(key) mod N`, it lies in `[0, N)` where `N` is
the length of the map, and `GetShard` returns the shard in that slot; a second call with an
equal key returns the same. -/
theorem C16_routing_total_deterministic (N : Int) (hN : 0 < N) (ops : List (Op × Time))
    (k : Key) :
    ∃ m shard, exec N ops = .ok m ∧ (m.length : Int) = N ∧
      shardIndex intBits N k = .ok ((Sum32 k : Int) % N) ∧
      0 ≤ (Sum32 k : Int) % N ∧ (Sum32 k : Int) % N < N ∧
      m[((Sum32 k : Int) % N).toNat]? = some shard ∧
      GetShard N m k = .ok (((Sum32 k : Int) % N).toNat, shard) ∧
      ∀ k1, k1 = k → GetShard N m k1 = .ok (((Sum32 k : Int) % N).toNat, shard) := by
  obtain ⟨m, he, hwf, _⟩ := exec_track hN ops
  obtain ⟨shard, hs, hg⟩ := GetShard_eq hwf k
  have hc := slot_cast hN k
  have hi : ((Sum32 k : Int) % N).toNat = slot N k := by
    rw [← hc]
    exact Int.toNat_ofNat _
  refine ⟨m, shard, he, ?_, ?_, Int.emod_nonneg _ (ne_of_gt hN), Int.emod_lt_of_pos _ hN,
    ?_, ?_, ?_⟩
  · rw [hwf.2]
    exact Int.toNat_of_nonneg (le_of_lt hN)
  · rw [shardIndex_eq hN, hc]
  · rw [hi]
    exact hs
  · rw [hi]
    exact hg
  · intro k1 hk1
    rw [hk1, hi]
    exact hg

/-- Witness of C16: the empty key on a fresh map of 32 shards. -/
theorem C16_routing_total_deterministic_witness :
    ∃ m shard, exec 32 [] = .ok m ∧ (m.length : Int) = 32 ∧
      shardIndex intBits 32 (str "") = .ok ((Sum32 (str "") : Int) % 32) ∧
      0 ≤ (Sum32 (str "") : Int) % 32 ∧ (Sum32 (str "") : Int) % 32 < 32 ∧
      m[((Sum32 (str "") : Int) % 32).toNat]? = some shard ∧
      GetShard 32 m (str "") = .ok (((Sum32 (str "") : Int) % 32).toNat, shard) ∧
      ∀ k1, k1 = str "" → GetShard 32 m k1 = .ok (((Sum32 (str "") : Int) % 32).toNat, shard) :=
  C16_routing_total_deterministic 32 (by decide) [] (str "")

/-- C19: every state reached from `New()` with `SHARD_COUNT = N > 0` by `Set`, `Remove` and
`Flush` calls has exactly `N` shards, every key resident in the table of slot `i` satisfies
`fnv32(key) mod N = i`, and the tables of two different slots share no key. -/
theorem C19_shard_placement (N : Int) (hN : 0 < N) (ops : List (Op × Time)) :
    ∃ m, exec N ops = .ok m ∧ (m.length : Int) = N ∧
      (∀ (i : Nat) (shard : ConcurrentMapShared), m[i]? = some shard →
        ∀ k ∈ shard.items.keys, (Sum32 k : Int) % N = (i : Int)) ∧
      ∀ (i j : Nat) (s1 s2 : ConcurrentMapShared), m[i]? = some s1 → m[j]? = some s2 → i ≠ j →
        ∀ k ∈ s1.items.keys, k ∉ s2.items.keys := by
  obtain ⟨m, he, hwf, _⟩ := exec_track hN ops
  have hp := exec_placed hN ops he
  refine ⟨m, he, ?_, ?_, ?_⟩
  · rw [hwf.2]
    exact Int.toNat_of_nonneg (le_of_lt hN)
  · intro i shard hs k hk
    rw [← slot_cast hN k, hp i shard hs k hk]
  · intro i j s1 s2 h1 h2 hij k hk
    exact Placed_disjoint hp h1 h2 hij k hk

/-- Witness of C19: three calls on 32 shards. -/
theorem C19_shard_placement_witness :
    ∃ m, exec 32 [(.set (str "elephant") (some (str "elephant")) 60, 0),
        (.set (str "monkey") (some (str "monkey")) 61, 1), (.remove (str "elephant"), 2)] = .ok m ∧
      (m.length : Int) = 32 ∧
      (∀ (i : Nat) (shard : ConcurrentMapShared), m[i]? = some shard →
        ∀ k ∈ shard.items.keys, (Sum32 k : Int) % 32 = (i : Int)) ∧
      ∀ (i j : Nat) (s1 s2 : ConcurrentMapShared), m[i]? = some s1 → m[j]? = some s2 → i ≠ j →
        ∀ k ∈ s1.items.keys, k ∉ s2.items.keys :=
  C19_shard_placement 32 (by decide)
    [(.set (str "elephant") (some (str "elephant")) 60, 0),
      (.set (str "monkey") (some (str "monkey")) 61, 1), (.remove (str "elephant"), 2)]

/-- C20, the code with a 32-bit `int`: the FNV-1 hash of the empty key is `2166136261`, which
is at least `2^31`; converted to a 32-bit `int` it is `-2128831035`, and the index expression
of `GetShard` with `SHARD_COUNT = 32` is `-27`, where a 64-bit `int` gives `5`. -/
theorem C20_index_negative_on_32_bit :
    2 ^ 31 ≤ Sum32 (str "") ∧
      intOfUint32 32 (Sum32 (str "")) = -2128831035 ∧
      shardIndex 32 32 (str "") = .ok (-27) ∧
      shardIndex 64 32 (str "") = .ok 5 := by
  decide

/-- C11: for every state reached from `New()` with `SHARD_COUNT = N > 0` and a fixed instant
`now`, the tuples `Iter()` sends form a list in which no key occurs twice, `(k, e)` is sent
exactly when `e` is the entry held under `k` by the shard `k` is routed to and `e.Expires` is
strictly after `now`, the list has length `Count()`, and `IterBuffered()` sends the same list
through a channel of that capacity. -/
theorem C11_iteration_yields_live_entries (N : Int) (hN : 0 < N) (ops : List (Op × Time))
    (now : Time) :
    ∃ m, exec N ops = .ok m ∧
      ((Iter m (fun _ => now)).map Tuple.Key).Nodup ∧
      (∀ k e, (⟨k, e⟩ : Tuple) ∈ Iter m (fun _ => now) ↔
        (∃ i shard, GetShard N m k = .ok (i, shard) ∧ shard.items.lookup k = some e) ∧
          now < e.Expires) ∧
      Count N m (fun _ => now) = .ok (Iter m (fun _ => now)).length ∧
      IterBuffered N m (fun _ => now) (fun _ => now)
        = .ok ((Iter m (fun _ => now)).length, Iter m (fun _ => now)) := by
  obtain ⟨m, he, hwf, _⟩ := exec_track hN ops
  have hp := exec_placed hN ops he
  refine ⟨m, he, Iter_keys_nodup hp now, ?_, Count_eq_Iter_length hwf now, ?_⟩
  · intro k e
    rw [mem_Iter_iff hp, stored_iff_GetShard hwf]
  · unfold ConcurrentMap.IterBuffered
    rw [Count_eq_Iter_length hwf now]
    rfl

/-- Witness of C11: the 100 keys of `TestIterator`, each set for a minute, on 32 shards. -/
theorem C11_iteration_yields_live_entries_witness :
    ∃ m, exec 32 hundredSets = .ok m ∧
      ((Iter m (fun _ => 100)).map Tuple.Key).Nodup ∧
      (∀ k e, (⟨k, e⟩ : Tuple) ∈ Iter m (fun _ => 100) ↔
        (∃ i shard, GetShard 32 m k = .ok (i, shard) ∧ shard.items.lookup k = some e) ∧
          100 < e.Expires) ∧
      Count 32 m (fun _ => 100) = .ok (Iter m (fun _ => 100)).length ∧
      IterBuffered 32 m (fun _ => 100) (fun _ => 100)
        = .ok ((Iter m (fun _ => 100)).length, Iter m (fun _ => 100)) :=
  C11_iteration_yields_live_entries 32 (by decide) hundredSets 100

set_option maxRecDepth 100000 in
/-- The scenarios of `TestIterator` and `TestBufferedIterator`, evaluated on the code: after
100 distinct keys are set for a minute on 32 shards, `Iter()` sends 100 tuples, and
`IterBuffered()` sends 100 tuples through a channel of capacity 100. -/
theorem Iter_hundredSets :
    (exec 32 hundredSets).map (fun m => (Iter m (fun _ => 100)).length) = .ok 100 ∧
      (exec 32 hundredSets).bind (fun m =>
        (IterBuffered 32 m (fun _ => 100) (fun _ => 100)).map (fun r => (r.1, r.2.length)))
        = .ok (100, 100) := by
  decide

/-- C12: on a well-formed map, `IterBuffered()` whose `Count()` is taken at instant `now0` and
whose scan reads instants `clock i ≥ now0` (non-decreasing or not) returns, and sends at most
as many tuples as the capacity `Count()` of its channel; when the scan reads `now0` itself it
sends exactly that many. -/
theorem C12_buffered_iterator_fits (N : Int) (m : ConcurrentMap) (hwf : WellFormed N m)
    (now0 : Time) (clock : Nat → Time) (hge : ∀ i, now0 ≤ clock i) :
    ∃ capacity out out0, Count N m (fun _ => now0) = .ok capacity ∧
      IterBuffered N m (fun _ => now0) clock = .ok (capacity, out) ∧
      out.length ≤ capacity ∧
      IterBuffered N m (fun _ => now0) (fun _ => now0) = .ok (capacity, out0) ∧
      out0.length = capacity := by
  refine ⟨_, ConcurrentMap.iterLoop clock m 0, Iter m (fun _ => now0), Count_const hwf now0,
    ?_, iterLoop_length_le now0 clock hge m 0, ?_, ?_⟩
  · unfold ConcurrentMap.IterBuffered
    rw [Count_const hwf now0]
  · unfold ConcurrentMap.IterBuffered
    rw [Count_const hwf now0]
    rfl
  · rw [Iter_const, List.length_map, List.countP_eq_length_filter]

/-- Witness of C12: `a` expires at 10 and `b` at 20 on 32 shards; the capacity is taken at
instant 5 and the scan reads the instants 5, 6, 7, ... -/
theorem C12_buffered_iterator_fits_witness :
    ∃ capacity out out0,
      Count 32 (((List.replicate 32 (⟨∅⟩ : ConcurrentMapShared)).set 30
          ⟨(∅ : Items).insert (str "a") ⟨10, some [1]⟩⟩).set 29
          ⟨(∅ : Items).insert (str "b") ⟨20, some [2]⟩⟩) (fun _ => 5) = .ok capacity ∧
      IterBuffered 32 (((List.replicate 32 (⟨∅⟩ : ConcurrentMapShared)).set 30
          ⟨(∅ : Items).insert (str "a") ⟨10, some [1]⟩⟩).set 29
          ⟨(∅ : Items).insert (str "b") ⟨20, some [2]⟩⟩) (fun _ => 5)
          (fun i => 5 + (i : Int)) = .ok (capacity, out) ∧
      out.length ≤ capacity ∧
      IterBuffered 32 (((List.replicate 32 (⟨∅⟩ : ConcurrentMapShared)).set 30
          ⟨(∅ : Items).insert (str "a") ⟨10, some [1]⟩⟩).set 29
          ⟨(∅ : Items).insert (str "b") ⟨20, some [2]⟩⟩) (fun _ => 5) (fun _ => 5)
          = .ok (capacity, out0) ∧
      out0.length = capacity :=
  C12_buffered_iterator_fits 32 _ ⟨by decide, by decide⟩ 5 (fun i => 5 + (i : Int))
    (fun i => by simp)

/-- C17: for every map and distinct keys `k1 ≠ k`, a `Set(k, ...)` or `Remove(k)` that returns
leaves `Get(k1)` and `Has(k1)` at every instant what they were; and on `New()` with
`SHARD_COUNT = N > 0`, for every call-by-call interleaving `l` of two sequences of calls over
disjoint key sets, (a) when the first sequence has set `k` with expiry `t` and has not
touched `k` since, `Get(k)` before `t` returns the bytes of that `Set` with `true`, whatever
the second sequence has done meanwhile, and (b) `Count()` after `l` is the number of live
keys of the first sequence plus that of the second. -/
theorem C17_disjoint_keys_do_not_interfere (N : Int) (m : ConcurrentMap) (k k1 : Key)
    (hne : k1 ≠ k) :
    (∀ v t now m1 now1, Set N m k v t now = .ok m1 →
        Get N m1 k1 now1 = Get N m k1 now1 ∧ Has N m1 k1 now1 = Has N m k1 now1) ∧
      (∀ m1 now1, Remove N m k = .ok m1 →
        Get N m1 k1 now1 = Get N m k1 now1 ∧ Has N m1 k1 now1 = Has N m k1 now1) ∧
      (0 < N → ∀ (a0 a1 b l : List (Op × Time)) (v : Option (List UInt8)) (t now0 now1 : Time),
        Interleaving (a0 ++ (Op.set k v t, now0) :: a1) b l →
        DisjointKeys (a0 ++ (Op.set k v t, now0) :: a1) b →
        (∀ c ∈ a1, Op.touches k c.1 = false) → now0 < t → now1 < t →
        ∃ m2, exec N l = .ok m2 ∧ Get N m2 k now1 = .ok (some (v.getD []), true)) ∧
      (0 < N → ∀ (a b l : List (Op × Time)) (now : Time),
        Interleaving a b l → DisjointKeys a b →
        ∃ m2, exec N l = .ok m2 ∧
          Count N m2 (fun _ => now) = .ok (liveKeyCount a now + liveKeyCount b now)) := by
  refine ⟨?_, ?_, ?_, ?_⟩
  · intro v t now m1 now1 h
    exact Set_frame h hne now1
  · intro m1 now1 h
    exact Remove_frame h hne now1
  · intro hN a0 a1 b l v t now0 now1 hi hd ha1 h0 h1
    obtain ⟨m2, he, hwf, hst⟩ := exec_track hN l
    refine ⟨m2, he, ?_⟩
    have hb : ∀ y ∈ b, Op.touches k y.1 = false := fun y hy =>
      hd k (Op.set k v t, now0) (by simp) y hy (by simp [Op.touches])
    have hs : stored N m2 k = some ⟨t, some (v.getD [])⟩ := by
      rw [hst k, foldl_track_interleaving hi hb, List.foldl_append, List.foldl_cons]
      have ht : track k (List.foldl (track k) none a0) (Op.set k v t, now0)
          = some ⟨t, some (v.getD [])⟩ := by
        simp [track, h0]
      rw [ht, foldl_track_untouched k a1 ha1]
    rw [Get_eq hwf, hs]
    simp only [getResult]
    rw [if_neg (show ¬ t < now1 from not_lt.2 h1.le)]
  · intro hN a b l now hi hd
    obtain ⟨m2, he, _, hc⟩ := Count_exec hN l now
    exact ⟨m2, he, by rw [hc, liveKeyCount_interleaving hi hd now]⟩

/-- Witness of C17: on 32 shards one writer sets `1` and the other sets `2`; the first then
reads `1` back, and the count is the sum of the two writers' live keys. -/
theorem C17_disjoint_keys_do_not_interfere_witness :
    str "2" ≠ str "1" ∧
      (∃ m2, exec 32 [(Op.set (str "1") (some [1]) 60, 0), (Op.set (str "2") (some [2]) 61, 1)]
          = .ok m2 ∧ Get 32 m2 (str "1") 5 = .ok (some [1], true)) ∧
      ∃ m2, exec 32 [(Op.set (str "1") (some [1]) 60, 0), (Op.set (str "2") (some [2]) 61, 1)]
          = .ok m2 ∧
        Count 32 m2 (fun _ => 5)
          = .ok (liveKeyCount [(Op.set (str "1") (some [1]) 60, 0)] 5
              + liveKeyCount [(Op.set (str "2") (some [2]) 61, 1)] 5) :=
  have h := C17_disjoint_keys_do_not_interfere 32 (List.replicate 32 ⟨∅⟩) (str "1") (str "2")
    (by decide)
  have hi : Interleaving [(Op.set (str "1") (some [1]) 60, (0 : Time))]
      [(Op.set (str "2") (some [2]) 61, (1 : Time))]
      [(Op.set (str "1") (some [1]) 60, 0), (Op.set (str "2") (some [2]) 61, 1)] :=
    Interleaving.left _ (Interleaving.right _ Interleaving.nil)
  have hd : DisjointKeys [(Op.set (str "1") (some [1]) 60, (0 : Time))]
      [(Op.set (str "2") (some [2]) 61, (1 : Time))] := by
    intro key x hx y hy hxt
    simp only [List.mem_singleton] at hx hy
    subst hx
    subst hy
    simp only [Op.touches, decide_eq_true_eq] at hxt
    subst hxt
    decide
  ⟨by decide,
    h.2.2.1 (by decide) [] [] _ _ (some [1]) 60 0 5 hi hd (by simp) (by decide) (by decide),
    h.2.2.2 (by decide) _ _ _ 5 hi hd⟩

set_option maxRecDepth 1000000 in
/-- The scenario of `TestConcurrent`, evaluated on the code for the interleaving that takes
one call of each writer in turn: after two writers have set 500 distinct keys each for a
minute on 32 shards, `Count()` is 1000. -/
theorem Count_twoWriters :
    (exec 32 (alternate (writer 0 500) (writer 500 500))).bind
        (fun m => Count 32 m (fun _ => 1000)) = .ok 1000 := by
  decide!

/-- C18, the code at the read boundary: on 32 shards a caller sets `k` from its buffer
`[1, 2, 3]`, takes the value back with `Get`, writes 9 into byte 0 of the slice it got, and
calls `Get` again; the second `Get` returns `[9, 2, 3]`, not the bytes passed to `Set`. -/
theorem C18_get_returns_stored_slice :
    getStoreGet 32 ⟨[[1, 2, 3]], List.replicate 32 ⟨∅⟩⟩ (str "k") (some ⟨0, 0, 3⟩) 10 0 5 6 0 9
      = .ok [9, 2, 3] := by
  decide

/-- C18 as amended: on a map of `N > 0` shards, an accepted `Set(k, v, t)` stores a slice `r`
over a fresh backing array that holds the bytes of `v`; every `Get(k)` before `t` returns
that very slice `r`; (1) a later write into any backing array that existed before the `Set`,
the caller's buffer `v` among them, leaves the bytes seen through `r` those passed to `Set`;
(2) a write of `b` into byte `i` of the slice returned by `Get` is a write into the stored
value: the bytes seen through `r` are then those passed to `Set` with byte `i` replaced by
`b`. -/
theorem C18_set_copies_get_shares (N : Int) (hN : 0 < N) (st : Store)
    (hlen : st.shards.length = N.toNat) (k : Key) (v : Option SliceRef)
    (hv : ∀ s, v = some s → s.off + s.len ≤ ((st.heap[s.addr]?).getD []).length)
    (t now0 : Time) (h0 : now0 < t) :
    ∃ st1 r, SetRef N st k v t now0 = .ok st1 ∧
      sliceBytes st1.heap (some r) = sliceBytes st.heap v ∧
      (∀ heap2 now1, now1 < t → GetRef N { st1 with heap := heap2 } k now1 = .ok (some r, true)) ∧
      (∀ w i b heap2, w.addr < st.heap.length → sliceStore st1.heap w i b = .ok heap2 →
        sliceBytes heap2 (some r) = sliceBytes st.heap v) ∧
      ∀ i b, i < r.len →
        ∃ heap2, sliceStore st1.heap r i b = .ok heap2 ∧
          sliceBytes heap2 (some r) = (sliceBytes st.heap v).set i b := by
  obtain ⟨st1, hset, hheap, hget⟩ := GetRef_after_SetRef hN hlen k v t now0 h0
  have hbl := sliceBytes_length hv
  have hfresh : (sliceBytes st.heap v ++ List.replicate (sliceLen v) 0).take (sliceLen v)
      = sliceBytes st.heap v := List.take_left' hbl
  rw [hfresh] at hheap
  have hat : st1.heap[st.heap.length]? = some (sliceBytes st.heap v) := by
    rw [hheap]
    exact List.getElem?_concat_length _ _
  refine ⟨st1, ⟨st.heap.length, 0, sliceLen v⟩, hset, ?_, hget, ?_, ?_⟩
  · simp only [sliceBytes, hat, Option.getD_some, List.drop_zero]
    exact List.take_of_length_le (le_of_eq hbl)
  · intro w i b heap2 hw hst
    unfold sliceStore at hst
    by_cases hi : i < w.len
    · rw [if_pos hi] at hst
      cases hst
      simp only [sliceBytes]
      rw [List.getElem?_set_ne (ne_of_lt hw), hat]
      simp only [Option.getD_some, List.drop_zero]
      exact List.take_of_length_le (le_of_eq hbl)
    · rw [if_neg hi] at hst
      cases hst
  · intro i b hi
    simp only at hi
    have hlt : st.heap.length < st1.heap.length := by
      rw [hheap, List.length_append]
      simp
    refine ⟨_, by unfold sliceStore; rw [if_pos (by exact hi)], ?_⟩
    simp only [sliceBytes]
    rw [List.getElem?_set_self hlt, hat]
    simp only [Option.getD_some, List.drop_zero, Nat.zero_add]
    exact List.take_of_length_le (by rw [List.length_set]; exact le_of_eq hbl)

/-- Witness of C18 as amended: the caller's buffer `[1, 2, 3]` at address 0, passed whole to
`Set("k", ...)` on 32 shards. -/
theorem C18_set_copies_get_shares_witness :
    ∃ st1 r, SetRef 32 ⟨[[1, 2, 3]], List.replicate 32 ⟨∅⟩⟩ (str "k") (some ⟨0, 0, 3⟩) 10 0
        = .ok st1 ∧
      sliceBytes st1.heap (some r) = sliceBytes [[1, 2, 3]] (some ⟨0, 0, 3⟩) ∧
      (∀ heap2 now1, now1 < 10 →
        GetRef 32 { st1 with heap := heap2 } (str "k") now1 = .ok (some r, true)) ∧
      (∀ w i b heap2, w.addr < ([[1, 2, 3]] : Heap).length →
        sliceStore st1.heap w i b = .ok heap2 →
        sliceBytes heap2 (some r) = sliceBytes [[1, 2, 3]] (some ⟨0, 0, 3⟩)) ∧
      ∀ i b, i < r.len →
        ∃ heap2, sliceStore st1.heap r i b = .ok heap2 ∧
          sliceBytes heap2 (some r) = (sliceBytes [[1, 2, 3]] (some ⟨0, 0, 3⟩)).set i b :=
  C18_set_copies_get_shares 32 (by decide) ⟨[[1, 2, 3]], List.replicate 32 ⟨∅⟩⟩ (by decide)
    (str "k") (some ⟨0, 0, 3⟩)
    (by
      intro s hs
      cases hs
      decide)
    10 0 (by decide)

end cmap
